import Mathlib

/-!
Verification of the temporal bash-history analyzer (`temporal_analyzer.py`).

The analyzer ingests timestamped shell-history lines, indexes command
patterns with their usage counts and calendar dates, filters them by a
non-adjacent-day recurrence metric, and proposes aliases, shell functions
and environment variables with collision-checked names.

This file shallowly embeds the relevant Python functions over `List Char`
(for text), `Int` (for calendar dates, one unit per day), `Nat` (for
counts) and association lists (for the `Counter`/`dict` state), and proves
or refutes the specification claims about them.  Python's `re.sub`-based
scanning functions are embedded as fuel-indexed structural recursions
(fuel is always instantiated with the length of the scanned text, which
is sufficient; lemmas are stated for any sufficient fuel) so that every
definition evaluates by `decide`/`rfl` on concrete inputs.
-/

namespace TA

/-- Whitespace test matching Python's `\s` and `str.strip()`/`str.split()`
on ASCII text: space, tab, newline, carriage return, vertical tab, form
feed. -/
def isSp (c : Char) : Bool :=
  c = ' ' || c = '\t' || c = '\n' || c = '\x0d' || c = '\x0b' || c = '\x0c'

/-- Python `str.strip()`: drop whitespace from both ends. -/
def strip (s : List Char) : List Char :=
  ((s.dropWhile isSp).reverse.dropWhile isSp).reverse

/-- Non-whitespace test (the character class scanned by `str.split()` when
collecting a word). -/
def nsp (c : Char) : Bool := !(isSp c)

/-- Helper for `words`: `acc` is the word currently being accumulated. -/
def wordsAux (acc : List Char) : List Char → List (List Char)
  | [] => if acc.isEmpty then [] else [acc]
  | c :: rest =>
    if isSp c then (if acc.isEmpty then [] else [acc]) ++ wordsAux [] rest
    else wordsAux (acc ++ [c]) rest

/-- Python `str.split()` with no argument: the maximal whitespace-free
runs of the text, in order. -/
def words (s : List Char) : List (List Char) := wordsAux [] s

/-- Join a list of words with single spaces (`' '.join`). -/
def joinSp : List (List Char) → List Char
  | [] => []
  | [w] => w
  | w :: ws => w ++ ' ' :: joinSp ws

/-- A text is space-free when none of its characters is whitespace. -/
def SpaceFree (w : List Char) : Prop := ∀ c ∈ w, isSp c = false

instance spaceFreeDecidable (w : List Char) : Decidable (SpaceFree w) :=
  inferInstanceAs (Decidable (∀ c ∈ w, isSp c = false))

theorem spaceFree_nil : SpaceFree [] := by intro c h; cases h

theorem spaceFree_append {a b : List Char} (ha : SpaceFree a) (hb : SpaceFree b) :
    SpaceFree (a ++ b) := by
  intro c hc
  rcases List.mem_append.mp hc with h | h
  · exact ha c h
  · exact hb c h

theorem spaceFree_of_append_left {a b : List Char} (h : SpaceFree (a ++ b)) :
    SpaceFree a := fun c hc => h c (List.mem_append.mpr (Or.inl hc))

theorem spaceFree_of_append_right {a b : List Char} (h : SpaceFree (a ++ b)) :
    SpaceFree b := fun c hc => h c (List.mem_append.mpr (Or.inr hc))

theorem takeWhile_append_all {p : Char → Bool} {w x : List Char}
    (h : ∀ c ∈ w, p c = true) :
    (w ++ x).takeWhile p = w ++ x.takeWhile p := by
  induction w with
  | nil => simp
  | cons c w ih =>
      have hc : p c = true := h c (List.mem_cons_self _ _)
      simp only [List.cons_append, List.takeWhile_cons, hc, if_true]
      rw [ih (fun d hd => h d (List.mem_cons_of_mem _ hd))]

theorem dropWhile_append_all {p : Char → Bool} {w x : List Char}
    (h : ∀ c ∈ w, p c = true) :
    (w ++ x).dropWhile p = x.dropWhile p := by
  induction w with
  | nil => simp
  | cons c w ih =>
      have hc : p c = true := h c (List.mem_cons_self _ _)
      simp only [List.cons_append, List.dropWhile_cons, hc, if_true]
      exact ih (fun d hd => h d (List.mem_cons_of_mem _ hd))

theorem takeWhile_nsp_of_spaceFree {w : List Char} (h : SpaceFree w) :
    w.takeWhile nsp = w := by
  induction w with
  | nil => rfl
  | cons c cs ih =>
      have hc : nsp c = true := by simp [nsp, h c (List.mem_cons_self _ _)]
      simp [List.takeWhile_cons, hc,
        ih (fun d hd => h d (List.mem_cons_of_mem _ hd))]

theorem spaceFree_takeWhile_nsp (s : List Char) : SpaceFree (s.takeWhile nsp) := by
  intro c hc
  have := List.mem_takeWhile_imp hc
  simpa [nsp] using this

/-! Basic `wordsAux`/`words` lemmas. -/

theorem wordsAux_sp {c : Char} (hc : isSp c = true) (acc rest : List Char) :
    wordsAux acc (c :: rest) =
      (if acc.isEmpty then [] else [acc]) ++ wordsAux [] rest := by
  simp [wordsAux, hc]

theorem wordsAux_nsp {c : Char} (hc : isSp c = false) (acc rest : List Char) :
    wordsAux acc (c :: rest) = wordsAux (acc ++ [c]) rest := by
  simp [wordsAux, hc]

theorem words_cons_sp {c : Char} (hc : isSp c = true) (rest : List Char) :
    words (c :: rest) = words rest := by
  simp [words, wordsAux_sp hc]

/-- Appending a space-free block to the text extends the accumulator. -/
theorem wordsAux_append_nsp {w : List Char} (hw : SpaceFree w) :
    ∀ (acc y : List Char), wordsAux acc (w ++ y) = wordsAux (acc ++ w) y := by
  induction w with
  | nil => intro acc y; simp
  | cons c w ih =>
      intro acc y
      have hc : isSp c = false := hw c (List.mem_cons_self _ _)
      have hw' : SpaceFree w := fun d hd => hw d (List.mem_cons_of_mem _ hd)
      simp only [List.cons_append, wordsAux_nsp hc]
      rw [ih hw' (acc ++ [c]) y]
      simp

/-- Characterization of `wordsAux` with a nonempty accumulator. -/
theorem wordsAux_eq_cons {acc : List Char} (hacc : acc ≠ []) :
    ∀ l : List Char,
      wordsAux acc l = (acc ++ l.takeWhile nsp) :: words (l.dropWhile nsp) := by
  intro l
  induction l generalizing acc with
  | nil => simp [wordsAux, words, hacc]
  | cons c rest ih =>
      by_cases hc : isSp c = true
      · have hnsp : nsp c = false := by simp [nsp, hc]
        rw [wordsAux_sp hc]
        have h1 : List.takeWhile nsp (c :: rest) = [] := by
          simp [List.takeWhile_cons, hnsp]
        have h2 : List.dropWhile nsp (c :: rest) = c :: rest := by
          simp [List.dropWhile_cons, hnsp]
        rw [h1, h2, words_cons_sp hc]
        cases acc with
        | nil => exact absurd rfl hacc
        | cons a as => simp [words]
      · have hc' : isSp c = false := by simpa using hc
        have hnsp : nsp c = true := by simp [nsp, hc']
        rw [wordsAux_nsp hc']
        rw [ih (by simp)]
        simp [List.takeWhile_cons, List.dropWhile_cons, hnsp]

theorem words_cons_nsp {c : Char} (hc : isSp c = false) (rest : List Char) :
    words (c :: rest) = (c :: rest.takeWhile nsp) :: words (rest.dropWhile nsp) := by
  have h := @wordsAux_eq_cons [c] (by simp) rest
  simpa [words, wordsAux_nsp hc] using h

/-- Dropping leading whitespace does not change the word list. -/
theorem words_dropWhile_sp (s : List Char) :
    words (s.dropWhile isSp) = words s := by
  induction s with
  | nil => rfl
  | cons c rest ih =>
      by_cases hc : isSp c = true
      · rw [List.dropWhile_cons, if_pos hc, ih, words_cons_sp hc]
      · have hc' : isSp c = false := by simpa using hc
        rw [List.dropWhile_cons, if_neg (by simp [hc'])]

/-- `words` of a space-free nonempty block followed by anything. -/
theorem words_append_word {w : List Char} (hw : SpaceFree w) (hne : w ≠ [])
    (x : List Char) :
    words (w ++ x) = (w ++ x.takeWhile nsp) :: words (x.dropWhile nsp) := by
  have h := wordsAux_append_nsp hw [] x
  simp only [List.nil_append] at h
  rw [words, h, wordsAux_eq_cons hne]

theorem words_nil : words ([] : List Char) = [] := rfl

/-- Every word produced by `wordsAux` over a space-free accumulator is
nonempty and space-free. -/
theorem wordsAux_wf {acc : List Char} (hacc : SpaceFree acc) :
    ∀ l : List Char, ∀ w ∈ wordsAux acc l, w ≠ [] ∧ SpaceFree w := by
  intro l
  induction l generalizing acc with
  | nil =>
      intro w hw
      by_cases h : acc.isEmpty
      · simp [wordsAux, h] at hw
      · simp [wordsAux, h] at hw
        subst hw
        exact ⟨by simpa using h, hacc⟩
  | cons c rest ih =>
      intro w hw
      by_cases hc : isSp c = true
      · rw [wordsAux_sp hc] at hw
        rcases List.mem_append.mp hw with h | h
        · by_cases hE : acc.isEmpty
          · simp [hE] at h
          · simp [hE] at h
            subst h
            exact ⟨by simpa using hE, hacc⟩
        · exact ih spaceFree_nil w h
      · have hc' : isSp c = false := by simpa using hc
        rw [wordsAux_nsp hc'] at hw
        exact ih (spaceFree_append hacc (fun d hd => by
          rcases List.mem_singleton.mp hd with rfl
          exact hc')) w hw

theorem words_wf (s : List Char) : ∀ w ∈ words s, w ≠ [] ∧ SpaceFree w :=
  wordsAux_wf spaceFree_nil s

theorem joinSp_cons (w : List Char) (ws : List (List Char)) :
    joinSp (w :: ws) = w ++ (if ws.isEmpty then [] else ' ' :: joinSp ws) := by
  cases ws with
  | nil => simp [joinSp]
  | cons v vs => simp [joinSp]

/-- `words` is a retraction of `joinSp` on well-formed word lists. -/
theorem words_joinSp {ws : List (List Char)}
    (h : ∀ w ∈ ws, w ≠ [] ∧ SpaceFree w) : words (joinSp ws) = ws := by
  induction ws with
  | nil => rfl
  | cons w vs ih =>
      obtain ⟨hne, hsf⟩ := h w (List.mem_cons_self _ _)
      have hvs : ∀ v ∈ vs, v ≠ [] ∧ SpaceFree v :=
        fun v hv => h v (List.mem_cons_of_mem _ hv)
      cases vs with
      | nil =>
          have := words_append_word hsf hne []
          simpa [joinSp] using this
      | cons v vs' =>
          have hjoin : joinSp (w :: v :: vs') = w ++ ' ' :: joinSp (v :: vs') := by
            simp [joinSp]
          rw [hjoin, words_append_word hsf hne]
          have hsp : isSp ' ' = true := by decide
          have hnsp : nsp ' ' = false := by simp [nsp, hsp]
          have h1 : List.takeWhile nsp (' ' :: joinSp (v :: vs')) = [] := by
            simp [List.takeWhile_cons, hnsp]
          have h2 : List.dropWhile nsp (' ' :: joinSp (v :: vs')) =
              ' ' :: joinSp (v :: vs') := by
            simp [List.dropWhile_cons, hnsp]
          rw [h1, h2, words_cons_sp hsp, ih hvs]
          simp

/-!
Embedding of `clean_command` (`temporal_analyzer.py`, lines 165-185).

The Python code strips the command, rejects empty or `#`-leading text,
then for each operator `op` in `['&&', '||', '|', ';', '>', '>>', '<',
'<<']` (in this order) performs `command = re.sub(rf'\s*{op}\s*',
f' {op} ', command)`, and finally collapses whitespace runs
(`re.sub(r'\s+', ' ', command).strip()`).
-/

/-- One rewriting pass of `re.sub(r'\s*OP\s*', ' OP ', s)` for a fixed
whitespace-free operator `op = o :: os`.  `re.sub` replaces the leftmost
matches, restarting after each replacement: at a position the pattern
matches iff skipping the whitespace run leaves `op` as a prefix; the
match also consumes the trailing whitespace run and is replaced by
`' ' :: op ++ [' ']`.  `fuel` bounds the recursion (always instantiated
with the length of the text, which suffices). -/
def subOpF (o : Char) (os : List Char) : Nat → List Char → List Char
  | 0, s => s
  | _ + 1, [] => []
  | fuel + 1, c :: rest =>
    if (o :: os).isPrefixOf ((c :: rest).dropWhile isSp) then
      ' ' :: ((o :: os) ++ ' ' :: subOpF o os fuel
        ((((c :: rest).dropWhile isSp).drop (o :: os).length).dropWhile isSp))
    else c :: subOpF o os fuel rest

/-- One operator pass over the whole text. -/
def subOp (op : List Char) (s : List Char) : List Char :=
  match op with
  | [] => s
  | o :: os => subOpF o os s.length s

/-- Python `re.sub(r'\s+', ' ', s)`: each maximal whitespace run becomes
a single space. -/
def collapseF : Nat → List Char → List Char
  | 0, s => s
  | _ + 1, [] => []
  | fuel + 1, c :: rest =>
    if isSp c then ' ' :: collapseF fuel (rest.dropWhile isSp)
    else c :: collapseF fuel rest

def collapseSp (s : List Char) : List Char := collapseF s.length s

/-- The operator list of `clean_command`, in source order. -/
def operators : List (List Char) :=
  [['&', '&'], ['|', '|'], ['|'], [';'], ['>'], ['>', '>'], ['<'], ['<', '<']]

/-- `clean_command` (lines 165-185): strip; reject empty or `#`-leading
text (returning `None`); re-space the operators; collapse whitespace and
strip again. -/
def clean_command (command : List Char) : Option (List Char) :=
  let t := strip command
  if t.isEmpty then none
  else if t.head? = some '#' then none
  else some (strip (collapseSp (operators.foldl (fun s op => subOp op s) t)))

/-!
Word-level analysis of the operator passes.  `splitW op w` splits a
space-free word at the non-overlapping leftmost occurrences of `op`; the
bridge lemma `subOp_words` below shows that one `re.sub` operator pass
acts on the word decomposition of the text exactly by splitting each
word this way.
-/

def splitWAux (o : Char) (os : List Char) (acc : List Char) :
    Nat → List Char → List (List Char)
  | 0, _ => if acc.isEmpty then [] else [acc]
  | _ + 1, [] => if acc.isEmpty then [] else [acc]
  | fuel + 1, c :: rest =>
    if (o :: os).isPrefixOf (c :: rest) then
      (if acc.isEmpty then [] else [acc]) ++
        (o :: os) :: splitWAux o os [] fuel ((c :: rest).drop (o :: os).length)
    else splitWAux o os (acc ++ [c]) fuel rest

def splitW (op w : List Char) : List (List Char) :=
  match op with
  | [] => [w]
  | o :: os => splitWAux o os [] w.length w

theorem isPrefixOf_iff {a b : List Char} : a.isPrefixOf b = true ↔ a <+: b :=
  List.isPrefixOf_iff_prefix

theorem prefix_append_drop {op l : List Char} (h : op <+: l) :
    op ++ l.drop op.length = l := by
  obtain ⟨t, rfl⟩ := h
  simp [List.drop_left]

theorem head?_dropWhile_not {p : Char → Bool} {l : List Char} :
    ∀ d, (l.dropWhile p).head? = some d → p d = false := by
  induction l with
  | nil => intro d h; simp at h
  | cons c rest ih =>
      intro d h
      by_cases hc : p c = true
      · rw [List.dropWhile_cons, if_pos hc] at h
        exact ih d h
      · have hc' : p c = false := by simpa using hc
        rw [List.dropWhile_cons, if_neg (by simp [hc'])] at h
        simp at h
        rw [← h]
        exact hc'

theorem takeWhile_dropWhile_self {p : Char → Bool} (l : List Char) :
    (l.dropWhile p).takeWhile p = [] := by
  cases h : l.dropWhile p with
  | nil => rfl
  | cons d r =>
      have hd : p d = false := head?_dropWhile_not d (by rw [h]; rfl)
      simp [List.takeWhile_cons, hd]

theorem dropWhile_dropWhile_self {p : Char → Bool} (l : List Char) :
    (l.dropWhile p).dropWhile p = l.dropWhile p := by
  cases h : l.dropWhile p with
  | nil => rfl
  | cons d r =>
      have hd : p d = false := head?_dropWhile_not d (by rw [h]; rfl)
      simp [List.dropWhile_cons, hd]

theorem dropWhile_sp_of_nsp_head {w z : List Char} (hw : w ≠ [])
    (h : SpaceFree w) : (w ++ z).dropWhile isSp = w ++ z := by
  cases w with
  | nil => exact absurd rfl hw
  | cons c w' =>
      have hc : isSp c = false := h c (List.mem_cons_self _ _)
      simp [List.dropWhile_cons, hc]

/-- Matching a space-free pattern is local to the leading word: whether
`op` is a prefix of `w ++ x` does not depend on `x` when `x` is empty or
starts with whitespace. -/
theorem prefix_word_local {op : List Char} (hop : SpaceFree op)
    {x : List Char} (hx : ∀ d, x.head? = some d → isSp d = true) :
    ∀ w : List Char, (op <+: w ++ x) ↔ op <+: w := by
  intro w
  induction w generalizing op with
  | nil =>
      cases op with
      | nil => simp
      | cons o os =>
          simp only [List.nil_append]
          constructor
          · intro h
            cases x with
            | nil => simp at h
            | cons d y =>
                have hd : isSp d = true := hx d rfl
                have := List.cons_prefix_cons.mp h
                have ho : isSp o = false := hop o (List.mem_cons_self _ _)
                rw [this.1] at ho
                rw [ho] at hd
                cases hd
          · intro h
            have : (o :: os) = [] := List.prefix_nil.mp h
            cases this
  | cons a w' ih =>
      cases op with
      | nil => simp
      | cons o os =>
          have hos : SpaceFree os := fun d hd => hop d (List.mem_cons_of_mem _ hd)
          simp only [List.cons_append, List.cons_prefix_cons]
          rw [ih hos]

/-- Fuel irrelevance for `splitWAux`: any fuel at least the length of the
scanned word gives the canonical value. -/
theorem splitWAux_fuel (o : Char) (os : List Char) :
    ∀ fuel : Nat, ∀ w acc : List Char, w.length ≤ fuel →
      splitWAux o os acc fuel w = splitWAux o os acc w.length w := by
  intro fuel
  induction fuel using Nat.strong_induction_on with
  | _ fuel ih =>
      intro w acc h
      cases fuel with
      | zero =>
          have : w = [] := List.length_eq_zero.mp (Nat.le_zero.mp h)
          subst this
          rfl
      | succ f =>
          cases w with
          | nil => rfl
          | cons c rest =>
              have hlen : (c :: rest).length ≤ f + 1 := h
              simp only [List.length_cons] at hlen
              by_cases hg : (o :: os).isPrefixOf (c :: rest) = true
              · simp only [splitWAux, hg, if_true, List.length_cons]
                have h1 : (List.drop (os.length + 1) (c :: rest)).length ≤ f := by
                  simp only [List.length_drop, List.length_cons]; omega
                have h2 : (List.drop (os.length + 1) (c :: rest)).length ≤ rest.length := by
                  simp only [List.length_drop, List.length_cons]; omega
                rw [ih f (Nat.lt_succ_self f) _ [] h1,
                  ih rest.length (Nat.lt_succ_of_le (by omega)) _ [] h2]
              · have hg' : (o :: os).isPrefixOf (c :: rest) = false :=
                  Bool.eq_false_iff.mpr hg
                simp only [splitWAux, hg', Bool.false_eq_true, if_false, List.length_cons]
                have h1 : rest.length ≤ f := by omega
                rw [ih f (Nat.lt_succ_self f) _ (acc ++ [c]) h1]

theorem len_dropWhile_le (p : Char → Bool) (l : List Char) :
    (l.dropWhile p).length ≤ l.length :=
  (List.dropWhile_suffix p).length_le

theorem len_takeWhile_le (p : Char → Bool) (l : List Char) :
    (l.takeWhile p).length ≤ l.length :=
  (List.takeWhile_prefix p).length_le

theorem splitWAux_nil (o : Char) (os : List Char) :
    ∀ (fw : Nat) (acc : List Char),
      splitWAux o os acc fw [] = if acc.isEmpty then [] else [acc] := by
  intro fw acc
  cases fw <;> rfl

theorem wordsAux_nil (acc : List Char) :
    wordsAux acc [] = if acc.isEmpty then [] else [acc] := rfl

/-- The head word of a text, scanned with its own length as fuel, plus
the split of the remaining words, is the split of all words. -/
theorem flat_first_word (o : Char) (os : List Char) (v : List Char) :
    splitWAux o os [] (v.takeWhile nsp).length (v.takeWhile nsp) ++
      (words (v.dropWhile nsp)).flatMap (splitW (o :: os)) =
    (words v).flatMap (splitW (o :: os)) := by
  cases v with
  | nil => rfl
  | cons c rest =>
      by_cases hc : isSp c = true
      · have hnspc : nsp c = false := by simp [nsp, hc]
        have h1 : List.takeWhile nsp (c :: rest) = [] := by
          simp [List.takeWhile_cons, hnspc]
        have h2 : List.dropWhile nsp (c :: rest) = c :: rest := by
          simp [List.dropWhile_cons, hnspc]
        rw [h1, h2]
        simp [splitWAux_nil]
      · have hc' : isSp c = false := by simpa using hc
        have hnspc : nsp c = true := by simp [nsp, hc']
        have h1 : List.takeWhile nsp (c :: rest) = c :: rest.takeWhile nsp := by
          simp [List.takeWhile_cons, hnspc]
        have h2 : List.dropWhile nsp (c :: rest) = rest.dropWhile nsp := by
          simp [List.dropWhile_cons, hnspc]
        rw [h1, h2, words_cons_nsp hc']
        rfl

/-- Splitting a word that starts with the operator emits the operator
and rescans the remainder. -/
theorem splitW_op_append (o : Char) (os t : List Char) :
    splitW (o :: os) ((o :: os) ++ t) = (o :: os) :: splitWAux o os [] t.length t := by
  show splitWAux o os [] ((o :: os) ++ t).length ((o :: os) ++ t) = _
  have hform : (o :: os) ++ t = o :: (os ++ t) := rfl
  have hlen : ((o :: os) ++ t).length = (os ++ t).length + 1 := by simp
  rw [hform] at hlen ⊢
  rw [hlen]
  have hg : (o :: os).isPrefixOf (o :: (os ++ t)) = true :=
    isPrefixOf_iff.mpr (List.prefix_append _ _)
  simp only [splitWAux, hg, if_true, List.isEmpty_nil, if_true, List.nil_append]
  have hdrop : (o :: (os ++ t)).drop (o :: os).length = t := by
    rw [← hform]
    exact List.drop_left _ _
  rw [hdrop]
  rw [splitWAux_fuel o os (os ++ t).length t [] (by simp)]

/-- Master bridge: one operator pass of `re.sub`, continued from any
scanning state, decomposes into the word-level split of the pending word
plus the splits of all later words.  `acc` is the pending (already
emitted, space-free) partial word; the word-level scanner receives the
remainder of the current word and any sufficient fuel. -/
theorem master (o : Char) (os : List Char) (hop : SpaceFree (o :: os)) :
    ∀ fuelS : Nat, ∀ u acc : List Char, ∀ fuelW : Nat,
      u.length ≤ fuelS → (u.takeWhile nsp).length ≤ fuelW → SpaceFree acc →
      wordsAux acc (subOpF o os fuelS u) =
        splitWAux o os acc fuelW (u.takeWhile nsp) ++
          (words (u.dropWhile nsp)).flatMap (splitW (o :: os)) := by
  intro fuelS
  induction fuelS with
  | zero =>
      intro u acc fuelW hS hW hacc
      have : u = [] := List.length_eq_zero.mp (Nat.le_zero.mp hS)
      subst this
      simp [subOpF, wordsAux_nil, splitWAux_nil, words]
  | succ f ih =>
      intro u acc fuelW hS hW hacc
      have key : ∀ v : List Char, v.length ≤ f →
          wordsAux [] (subOpF o os f v) = (words v).flatMap (splitW (o :: os)) := by
        intro v hv
        rw [ih v [] (v.takeWhile nsp).length hv (le_refl _) spaceFree_nil,
          flat_first_word]
      cases u with
      | nil => simp [subOpF, wordsAux_nil, splitWAux_nil, words]
      | cons c rest =>
          have hSlen : rest.length + 1 ≤ f + 1 := by simpa using hS
          by_cases hc : isSp c = true
          · -- current character is whitespace: no pending word grows
            have hnspc : nsp c = false := by simp [nsp, hc]
            have hTake : List.takeWhile nsp (c :: rest) = [] := by
              simp [List.takeWhile_cons, hnspc]
            have hDropN : List.dropWhile nsp (c :: rest) = c :: rest := by
              simp [List.dropWhile_cons, hnspc]
            have hDropSp : List.dropWhile isSp (c :: rest) =
                List.dropWhile isSp rest := by
              simp [List.dropWhile_cons, hc]
            rw [hTake, hDropN, splitWAux_nil]
            by_cases hg : (o :: os).isPrefixOf ((c :: rest).dropWhile isSp) = true
            · -- a match starts here (inside the whitespace run)
              simp only [subOpF, hg, if_true]
              have hpre : (o :: os) <+: List.dropWhile isSp rest := by
                rw [hDropSp] at hg
                exact isPrefixOf_iff.mp hg
              set rem := (List.dropWhile isSp rest).drop (o :: os).length with hrem
              have hdec : List.dropWhile isSp rest = (o :: os) ++ rem :=
                (prefix_append_drop hpre).symm
              have hr'' : (((c :: rest).dropWhile isSp).drop (o :: os).length).dropWhile
                  isSp = rem.dropWhile isSp := by
                rw [hDropSp, ← hrem]
              rw [hr'']
              have hspace : isSp ' ' = true := by decide
              rw [wordsAux_sp hspace]
              have hops : wordsAux [] ((o :: os) ++ ' ' :: subOpF o os f
                  (rem.dropWhile isSp)) = (o :: os) ::
                  wordsAux [] (subOpF o os f (rem.dropWhile isSp)) := by
                rw [wordsAux_append_nsp hop [] _, wordsAux_sp hspace]
                simp
              rw [hops]
              have hlen1 : (rem.dropWhile isSp).length ≤ f := by
                have l1 : (rem.dropWhile isSp).length ≤ rem.length :=
                  len_dropWhile_le _ _
                have l2 : rem.length ≤ (List.dropWhile isSp rest).length := by
                  rw [hrem]; simp [List.length_drop]
                have l3 : (List.dropWhile isSp rest).length ≤ rest.length :=
                  len_dropWhile_le _ _
                omega
              rw [key _ hlen1]
              have hwr : words (rem.dropWhile isSp) = words rem :=
                words_dropWhile_sp rem
              rw [hwr]
              have hrhs : words (c :: rest) = ((o :: os) ++ rem.takeWhile nsp) ::
                  words (rem.dropWhile nsp) := by
                rw [words_cons_sp hc, ← words_dropWhile_sp rest, hdec,
                  words_append_word hop (by simp)]
              rw [hrhs]
              rw [List.flatMap_cons, splitW_op_append]
              have hflat2 := flat_first_word o os rem
              simp only [List.cons_append, List.nil_append]
              rw [← hflat2]
            · -- no match here: emit the whitespace character and continue
              have hg' : (o :: os).isPrefixOf ((c :: rest).dropWhile isSp) = false :=
                Bool.eq_false_iff.mpr hg
              simp only [subOpF, hg', Bool.false_eq_true, if_false]
              rw [wordsAux_sp hc]
              rw [key rest (by omega)]
              rw [words_cons_sp hc]
          · -- current character starts or continues a word
            have hc' : isSp c = false := by simpa using hc
            have hnspc : nsp c = true := by simp [nsp, hc']
            have hTake : List.takeWhile nsp (c :: rest) = c :: rest.takeWhile nsp := by
              simp [List.takeWhile_cons, hnspc]
            have hDropN : List.dropWhile nsp (c :: rest) = rest.dropWhile nsp := by
              simp [List.dropWhile_cons, hnspc]
            have hDropSp : List.dropWhile isSp (c :: rest) = c :: rest := by
              simp [List.dropWhile_cons, hc']
            have hWlen : (rest.takeWhile nsp).length + 1 ≤ fuelW := by
              rw [hTake] at hW
              simpa using hW
            obtain ⟨fw, rfl⟩ : ∃ fw, fuelW = fw + 1 := by
              cases fuelW with
              | zero => omega
              | succ fw => exact ⟨fw, rfl⟩
            -- word decomposition of the current suffix
            have hsplit : c :: rest = (c :: rest.takeWhile nsp) ++
                rest.dropWhile nsp := by
              rw [List.cons_append, List.takeWhile_append_dropWhile]
            have hxhead : ∀ d, (rest.dropWhile nsp).head? = some d →
                isSp d = true := by
              intro d hd
              have := head?_dropWhile_not d hd
              simpa [nsp] using this
            have hlocal : ((o :: os) <+: c :: rest) ↔
                ((o :: os) <+: c :: rest.takeWhile nsp) := by
              conv_lhs => rw [hsplit]
              exact prefix_word_local hop hxhead _
            have hw1sf : SpaceFree (c :: rest.takeWhile nsp) := by
              intro d hd
              rcases List.mem_cons.mp hd with rfl | hd
              · exact hc'
              · exact spaceFree_takeWhile_nsp rest d hd
            rw [hTake, hDropN]
            by_cases hpre : (o :: os) <+: (c :: rest)
            · -- a match starts at this word position
              have hg1 : (o :: os).isPrefixOf ((c :: rest).dropWhile isSp) = true := by
                rw [hDropSp]; exact isPrefixOf_iff.mpr hpre
              have hg2 : (o :: os).isPrefixOf (c :: rest.takeWhile nsp) = true :=
                isPrefixOf_iff.mpr (hlocal.mp hpre)
              simp only [subOpF, hg1, if_true]
              simp only [splitWAux, hg2, if_true]
              have hspace : isSp ' ' = true := by decide
              rw [wordsAux_sp hspace]
              have hops : wordsAux [] ((o :: os) ++ ' ' :: subOpF o os f
                  ((((c :: rest).dropWhile isSp).drop (o :: os).length).dropWhile isSp))
                  = (o :: os) :: wordsAux [] (subOpF o os f
                  ((((c :: rest).dropWhile isSp).drop (o :: os).length).dropWhile isSp)) := by
                rw [wordsAux_append_nsp hop [] _, wordsAux_sp hspace]
                simp
              rw [hops]
              -- the dropped remainder decomposes along the word boundary
              have hle : (o :: os).length ≤ (c :: rest.takeWhile nsp).length :=
                List.IsPrefix.length_le (hlocal.mp hpre)
              have hdropdec : (c :: rest).drop (o :: os).length =
                  (c :: rest.takeWhile nsp).drop (o :: os).length ++
                    rest.dropWhile nsp := by
                conv_lhs => rw [hsplit]
                rw [List.drop_append_eq_append_drop]
                have : (o :: os).length - (c :: rest.takeWhile nsp).length = 0 := by
                  omega
                rw [this, List.drop_zero]
              set w' := (c :: rest.takeWhile nsp).drop (o :: os).length with hw'
              have hw'sf : SpaceFree w' := by
                intro d hd
                exact hw1sf d (List.mem_of_mem_drop hd)
              rw [hDropSp, hdropdec]
              by_cases hw'nil : w' = []
              · -- the operator consumes the current word exactly
                rw [hw'nil]
                simp only [List.nil_append]
                rw [key _ (by
                  have l1 : ((rest.dropWhile nsp).dropWhile isSp).length ≤
                      (rest.dropWhile nsp).length := len_dropWhile_le _ _
                  have l2 : (rest.dropWhile nsp).length ≤ rest.length :=
                    len_dropWhile_le _ _
                  omega)]
                rw [words_dropWhile_sp]
                rw [splitWAux_nil]
                simp
              · -- part of the current word remains after the operator
                have hdrw : (w' ++ rest.dropWhile nsp).dropWhile isSp =
                    w' ++ rest.dropWhile nsp :=
                  dropWhile_sp_of_nsp_head hw'nil hw'sf
                rw [hdrw]
                have htk : (w' ++ rest.dropWhile nsp).takeWhile nsp = w' := by
                  rw [takeWhile_append_all (fun d hd => by
                    simp [nsp, hw'sf d hd])]
                  rw [takeWhile_dropWhile_self]
                  simp
                have hdr : (w' ++ rest.dropWhile nsp).dropWhile nsp =
                    rest.dropWhile nsp := by
                  rw [dropWhile_append_all (fun d hd => by
                    simp [nsp, hw'sf d hd])]
                  exact dropWhile_dropWhile_self rest
                have hlen2 : (w' ++ rest.dropWhile nsp).length ≤ f := by
                  have l1 : w'.length + (o :: os).length =
                      (c :: rest.takeWhile nsp).length := by
                    rw [hw', List.length_drop]
                    omega
                  simp only [List.length_cons] at l1
                  have l2 : (rest.takeWhile nsp).length ≤ rest.length :=
                    len_takeWhile_le _ _
                  have l3 : (rest.dropWhile nsp).length ≤ rest.length := by
                    have := len_dropWhile_le nsp rest
                    omega
                  -- w' and the word tail are disjoint pieces of rest
                  have l4 : w'.length + (rest.dropWhile nsp).length ≤
                      rest.length := by
                    have := congrArg List.length hsplit
                    simp only [List.length_cons, List.length_append] at this
                    have l5 : (o :: os).length ≥ 1 := by simp
                    omega
                  simp only [List.length_append]
                  omega
                have hfw : ((w' ++ rest.dropWhile nsp).takeWhile nsp).length ≤ fw := by
                  rw [htk]
                  have l1 : w'.length + (o :: os).length =
                      (c :: rest.takeWhile nsp).length := by
                    rw [hw', List.length_drop]
                    omega
                  simp only [List.length_cons] at l1 hle
                  omega
                have hih2 := ih (w' ++ rest.dropWhile nsp) [] fw hlen2 hfw
                  spaceFree_nil
                rw [hih2, htk, hdr]
                simp
            · -- no match at this word position: grow the pending word
              have hg1 : (o :: os).isPrefixOf ((c :: rest).dropWhile isSp) = false := by
                rw [hDropSp]
                exact Bool.eq_false_iff.mpr (fun h => hpre (isPrefixOf_iff.mp h))
              have hg2 : (o :: os).isPrefixOf (c :: rest.takeWhile nsp) = false :=
                Bool.eq_false_iff.mpr (fun h => hpre (hlocal.mpr (isPrefixOf_iff.mp h)))
              simp only [subOpF, hg1, Bool.false_eq_true, if_false]
              simp only [splitWAux, hg2, Bool.false_eq_true, if_false]
              rw [wordsAux_nsp hc']
              have haccsf : SpaceFree (acc ++ [c]) := by
                intro d hd
                rcases List.mem_append.mp hd with hd | hd
                · exact hacc d hd
                · rcases List.mem_singleton.mp hd with rfl
                  exact hc'
              exact ih rest (acc ++ [c]) fw (by omega) (by omega) haccsf

/-- One `re.sub` operator pass splits every word of the text at the
occurrences of the operator. -/
theorem subOp_words {op : List Char} (hopne : op ≠ []) (hop : SpaceFree op)
    (u : List Char) : words (subOp op u) = (words u).flatMap (splitW op) := by
  cases op with
  | nil => exact absurd rfl hopne
  | cons o os =>
      show words (subOpF o os u.length u) = _
      rw [words, master o os hop u.length u [] (u.takeWhile nsp).length
        (le_refl _) (le_refl _) spaceFree_nil, flat_first_word]

/-! Facts about the outputs of `splitW`. -/

/-- `op` occurs (as a contiguous substring) in `w`. -/
def Occurs (op w : List Char) : Prop := ∃ i, op <+: w.drop i

theorem prefix_extend {op x y : List Char} (h : op <+: x) : op <+: x ++ y := by
  obtain ⟨t, rfl⟩ := h
  exact ⟨t ++ y, by simp⟩

theorem occurs_singleton {c : Char} {w : List Char} :
    Occurs [c] w ↔ c ∈ w := by
  constructor
  · rintro ⟨i, t, ht⟩
    have : c ∈ w.drop i := by rw [← ht]; simp
    exact List.drop_subset _ _ this
  · intro h
    induction w with
    | nil => cases h
    | cons a rest ih =>
        rcases List.mem_cons.mp h with rfl | h
        · exact ⟨0, ⟨rest, rfl⟩⟩
        · obtain ⟨i, hp⟩ := ih h
          exact ⟨i + 1, hp⟩

theorem occurs_pair_mem {a b : Char} {w : List Char} (h : Occurs [a, b] w) :
    a ∈ w := by
  obtain ⟨i, t, ht⟩ := h
  have : a ∈ w.drop i := by rw [← ht]; simp
  exact List.drop_subset _ _ this

theorem occurs_of_mid {op v w : List Char} (hvw : v <:+: w)
    (h : Occurs op v) : Occurs op w := by
  obtain ⟨p, s, rfl⟩ := hvw
  obtain ⟨i, hp⟩ := h
  refine ⟨p.length + i, ?_⟩
  have h1 : (p ++ v ++ s).drop (p.length + i) =
      v.drop i ++ s.drop (i - v.length) := by
    rw [List.append_assoc, List.drop_append_eq_append_drop,
      List.drop_eq_nil_of_le (by omega), List.nil_append]
    have h0 : p.length + i - p.length = i := by omega
    rw [h0, List.drop_append_eq_append_drop]
  rw [h1]
  exact prefix_extend hp

/-- The fragment pending in the scanner has no operator occurrence when
it is emitted. -/
theorem emit_case (o : Char) (os : List Char) {acc w : List Char}
    (hinv : ∀ i, i < acc.length → ¬ (o :: os) <+: (acc ++ w).drop i)
    (hne : acc ≠ []) :
    ¬ Occurs (o :: os) acc ∧ acc ≠ [] ∧ acc <:+: (acc ++ w) := by
  refine ⟨?_, hne, (List.prefix_append acc w).isInfix⟩
  rintro ⟨i, hp⟩
  by_cases hi : i < acc.length
  · refine hinv i hi ?_
    have hsplit2 : (acc ++ w).drop i = acc.drop i ++ w := by
      rw [List.drop_append_eq_append_drop]
      have h0 : i - acc.length = 0 := by omega
      rw [h0, List.drop_zero]
    rw [hsplit2]
    exact prefix_extend hp
  · rw [List.drop_eq_nil_of_le (by omega)] at hp
    have : (o :: os) = [] := List.prefix_nil.mp hp
    cases this

/-- Scanner invariant: every output of `splitWAux` is either the operator
itself or a nonempty fragment that is an occurrence-free infix of the
scanned text (`acc ++ w`), provided no occurrence of the operator starts
inside the pending fragment `acc`. -/
theorem splitWAux_spec (o : Char) (os : List Char) :
    ∀ fuel : Nat, ∀ w acc : List Char, w.length ≤ fuel →
      (∀ i, i < acc.length → ¬ (o :: os) <+: (acc ++ w).drop i) →
      ∀ v ∈ splitWAux o os acc fuel w,
        v = (o :: os) ∨ (¬ Occurs (o :: os) v ∧ v ≠ [] ∧ v <:+: (acc ++ w)) := by
  intro fuel
  induction fuel with
  | zero =>
      intro w acc hlen hinv v hv
      have hw : w = [] := List.length_eq_zero.mp (Nat.le_zero.mp hlen)
      subst hw
      by_cases hacc : acc.isEmpty
      · simp [splitWAux, hacc] at hv
      · simp [splitWAux, hacc] at hv
        rw [hv]
        exact Or.inr (emit_case o os hinv (by simpa using hacc))
  | succ f ih =>
      intro w acc hlen hinv v hv
      cases w with
      | nil =>
          by_cases hacc : acc.isEmpty
          · simp [splitWAux, hacc] at hv
          · simp [splitWAux, hacc] at hv
            rw [hv]
            exact Or.inr (emit_case o os hinv (by simpa using hacc))
      | cons c rest =>
          have hlen' : rest.length + 1 ≤ f + 1 := by simpa using hlen
          by_cases hg : (o :: os).isPrefixOf (c :: rest) = true
          · simp only [splitWAux, hg, if_true] at hv
            rcases List.mem_append.mp hv with hv | hv
            · -- the pending fragment is emitted
              by_cases hacc : acc.isEmpty
              · simp [hacc] at hv
              · simp [hacc] at hv
                rw [hv]
                exact Or.inr (emit_case o os hinv (by simpa using hacc))
            · rcases List.mem_cons.mp hv with rfl | hv
              · exact Or.inl rfl
              · have hrec := ih ((c :: rest).drop (o :: os).length) [] (by
                  simp only [List.length_drop, List.length_cons]
                  omega) (by intro i hi; simp at hi) v hv
                rcases hrec with h | ⟨hocc, hne, hinf⟩
                · exact Or.inl h
                · refine Or.inr ⟨hocc, hne, ?_⟩
                  have h1 : ((c :: rest).drop (o :: os).length) <:+ c :: rest :=
                    List.drop_suffix _ _
                  have h2 : (c :: rest) <:+ acc ++ c :: rest :=
                    List.suffix_append _ _
                  simp only [List.nil_append] at hinf
                  exact hinf.trans (h1.isInfix.trans h2.isInfix)
          · have hg' : (o :: os).isPrefixOf (c :: rest) = false :=
              Bool.eq_false_iff.mpr hg
            simp only [splitWAux, hg', Bool.false_eq_true, if_false] at hv
            have hinv' : ∀ i, i < (acc ++ [c]).length →
                ¬ (o :: os) <+: ((acc ++ [c]) ++ rest).drop i := by
              intro i hi
              rw [List.append_assoc, List.singleton_append]
              by_cases hic : i < acc.length
              · exact hinv i hic
              · have : i = acc.length := by
                  simp only [List.length_append, List.length_singleton] at hi
                  omega
                subst this
                rw [List.drop_left]
                intro hp
                exact hg (isPrefixOf_iff.mpr hp)
            have := ih rest (acc ++ [c]) (by omega) hinv' v hv
            rcases this with h | ⟨hocc, hne, hinf⟩
            · exact Or.inl h
            · refine Or.inr ⟨hocc, hne, ?_⟩
              rw [List.append_assoc, List.singleton_append] at hinf
              exact hinf

theorem head?_append_left {a b : List Char} (h : a ≠ []) :
    (a ++ b).head? = a.head? := by
  cases a with
  | nil => exact absurd rfl h
  | cons x xs => rfl

theorem splitW_spec {o : Char} {os w : List Char} :
    ∀ v ∈ splitW (o :: os) w,
      v = (o :: os) ∨ (¬ Occurs (o :: os) v ∧ v ≠ [] ∧ v <:+: w) := by
  intro v hv
  have h := splitWAux_spec o os w.length w [] (le_refl _)
    (by intro i hi; simp at hi) v hv
  simpa using h

theorem splitWAux_no_occur (o : Char) (os : List Char) :
    ∀ fuel : Nat, ∀ w acc : List Char, w.length ≤ fuel →
      ¬ Occurs (o :: os) w →
      splitWAux o os acc fuel w =
        if (acc ++ w).isEmpty then [] else [acc ++ w] := by
  intro fuel
  induction fuel with
  | zero =>
      intro w acc hlen hocc
      have hw : w = [] := List.length_eq_zero.mp (Nat.le_zero.mp hlen)
      subst hw
      simp [splitWAux]
  | succ f ih =>
      intro w acc hlen hocc
      cases w with
      | nil => simp [splitWAux]
      | cons c rest =>
          have hg : (o :: os).isPrefixOf (c :: rest) = false := by
            rw [Bool.eq_false_iff]
            intro h
            exact hocc ⟨0, isPrefixOf_iff.mp h⟩
          simp only [splitWAux, hg, Bool.false_eq_true, if_false]
          have hocc' : ¬ Occurs (o :: os) rest := by
            rintro ⟨i, hp⟩
            exact hocc ⟨i + 1, hp⟩
          rw [ih rest (acc ++ [c]) (by simpa using hlen) hocc']
          simp

theorem splitW_no_occur {o : Char} {os w : List Char} (hw : w ≠ [])
    (h : ¬ Occurs (o :: os) w) : splitW (o :: os) w = [w] := by
  show splitWAux o os [] w.length w = [w]
  rw [splitWAux_no_occur o os w.length w [] (le_refl _) h]
  simp [hw]

theorem splitWAux_ne (o : Char) (os : List Char) :
    ∀ fuel : Nat, ∀ w acc : List Char, w.length ≤ fuel →
      (acc ≠ [] ∨ w ≠ []) → splitWAux o os acc fuel w ≠ [] := by
  intro fuel
  induction fuel with
  | zero =>
      intro w acc hlen hne
      have hw : w = [] := List.length_eq_zero.mp (Nat.le_zero.mp hlen)
      subst hw
      rcases hne with h | h
      · simp [splitWAux, h]
      · exact absurd rfl h
  | succ f ih =>
      intro w acc hlen hne
      cases w with
      | nil =>
          rcases hne with h | h
          · simp [splitWAux, h]
          · exact absurd rfl h
      | cons c rest =>
          by_cases hg : (o :: os).isPrefixOf (c :: rest) = true
          · simp [splitWAux, hg]
          · have hg' : (o :: os).isPrefixOf (c :: rest) = false :=
              Bool.eq_false_iff.mpr hg
            simp only [splitWAux, hg', Bool.false_eq_true, if_false]
            exact ih rest (acc ++ [c]) (by simpa using hlen) (Or.inl (by simp))

theorem splitW_ne {o : Char} {os w : List Char} (hw : w ≠ []) :
    splitW (o :: os) w ≠ [] :=
  splitWAux_ne o os w.length w [] (le_refl _) (Or.inr hw)

theorem splitWAux_head (o : Char) (os : List Char) :
    ∀ fuel : Nat, ∀ w acc : List Char, w.length ≤ fuel →
      (acc ≠ [] ∨ w ≠ []) →
      ∃ v vs, splitWAux o os acc fuel w = v :: vs ∧
        v.head? = (acc ++ w).head? := by
  intro fuel
  induction fuel with
  | zero =>
      intro w acc hlen hne
      have hw : w = [] := List.length_eq_zero.mp (Nat.le_zero.mp hlen)
      subst hw
      rcases hne with h | h
      · refine ⟨acc, [], ?_, by simp⟩
        simp [splitWAux, h]
      · exact absurd rfl h
  | succ f ih =>
      intro w acc hlen hne
      cases w with
      | nil =>
          rcases hne with h | h
          · refine ⟨acc, [], ?_, by simp⟩
            simp [splitWAux, h]
          · exact absurd rfl h
      | cons c rest =>
          by_cases hg : (o :: os).isPrefixOf (c :: rest) = true
          · by_cases hacc : acc.isEmpty
            · have haccnil : acc = [] := by simpa using hacc
              subst haccnil
              refine ⟨o :: os,
                splitWAux o os [] f ((c :: rest).drop (o :: os).length), ?_, ?_⟩
              · simp [splitWAux, hg]
              · have := List.cons_prefix_cons.mp (isPrefixOf_iff.mp hg)
                simp [this.1]
            · have haccne : acc ≠ [] := by simpa using hacc
              refine ⟨acc, (o :: os) ::
                splitWAux o os [] f ((c :: rest).drop (o :: os).length), ?_, ?_⟩
              · simp [splitWAux, hg, hacc]
              · rw [head?_append_left haccne]
          · have hg' : (o :: os).isPrefixOf (c :: rest) = false :=
              Bool.eq_false_iff.mpr hg
            obtain ⟨v, vs, heq, hhead⟩ := ih rest (acc ++ [c])
              (by simpa using hlen) (Or.inl (by simp))
            refine ⟨v, vs, ?_, ?_⟩
            · simp only [splitWAux, hg', Bool.false_eq_true, if_false]
              exact heq
            · rw [hhead, List.append_assoc, List.singleton_append]

theorem splitW_head {o : Char} {os w : List Char} (hw : w ≠ []) :
    ∃ v vs, splitW (o :: os) w = v :: vs ∧ v.head? = w.head? := by
  obtain ⟨v, vs, heq, hh⟩ := splitWAux_head o os w.length w [] (le_refl _)
    (Or.inr hw)
  exact ⟨v, vs, heq, by simpa using hh⟩

/-! The word-level action of the eight operator passes in source order,
and its key properties: stability of the produced word shapes and
idempotence. -/

def opsChain (ws : List (List Char)) : List (List Char) :=
  operators.foldl (fun ws op => ws.flatMap (splitW op)) ws

/-- A word of the decomposition: nonempty and whitespace-free. -/
def Wf (v : List Char) : Prop := v ≠ [] ∧ SpaceFree v

theorem foldl_subOp_words :
    ∀ (ops : List (List Char)) (t : List Char),
      (∀ op ∈ ops, op ≠ [] ∧ SpaceFree op) →
      words (ops.foldl (fun s op => subOp op s) t) =
        ops.foldl (fun ws op => ws.flatMap (splitW op)) (words t) := by
  intro ops
  induction ops with
  | nil => intro t h; rfl
  | cons op ops ih =>
      intro t h
      obtain ⟨hne, hsf⟩ := h op (List.mem_cons_self _ _)
      simp only [List.foldl_cons]
      rw [ih _ (fun p hp => h p (List.mem_cons_of_mem _ hp)),
        subOp_words hne hsf]

theorem operators_wf : ∀ op ∈ operators, op ≠ [] ∧ SpaceFree op := by
  intro op hop
  fin_cases hop <;> exact ⟨by simp, by decide⟩

theorem words_opsChain (t : List Char) :
    words (operators.foldl (fun s op => subOp op s) t) = opsChain (words t) :=
  foldl_subOp_words operators t operators_wf

theorem foldl_flat_append (ops : List (List Char)) :
    ∀ a b : List (List Char),
      ops.foldl (fun ws op => ws.flatMap (splitW op)) (a ++ b) =
        ops.foldl (fun ws op => ws.flatMap (splitW op)) a ++
          ops.foldl (fun ws op => ws.flatMap (splitW op)) b := by
  induction ops with
  | nil => intro a b; rfl
  | cons op ops ih =>
      intro a b
      simp only [List.foldl_cons, List.flatMap_append]
      rw [ih]

theorem opsChain_append (a b : List (List Char)) :
    opsChain (a ++ b) = opsChain a ++ opsChain b :=
  foldl_flat_append operators a b

theorem occurs_length_le {op w : List Char} (h : Occurs op w) :
    op.length ≤ w.length := by
  obtain ⟨i, hp⟩ := h
  have h1 := hp.length_le
  have h2 := List.length_drop i w
  omega

theorem wf_of_splitW {o : Char} {os w : List Char} (hsf : SpaceFree (o :: os))
    (hw : Wf w) : ∀ v ∈ splitW (o :: os) w, Wf v := by
  intro v hv
  rcases splitW_spec v hv with rfl | ⟨_, hne, hinf⟩
  · exact ⟨by simp, hsf⟩
  · exact ⟨hne, fun c hc => hw.2 c (hinf.subset hc)⟩

theorem flat_step {op : List Char} {P Q : List Char → Prop}
    (hout : ∀ w, P w → ∀ v ∈ splitW op w, Q v) :
    ∀ ws : List (List Char), (∀ w ∈ ws, P w) →
      ∀ v ∈ ws.flatMap (splitW op), Q v := by
  intro ws h v hv
  obtain ⟨w, hw, hvw⟩ := List.mem_flatMap.mp hv
  exact hout w (h w hw) v hvw

/-! Shape predicates tracked through the passes.  `Pk` holds of every
word after the first `k` passes. -/

def P1 (v : List Char) : Prop :=
  Wf v ∧ (v = ['&', '&'] ∨ ¬ Occurs ['&', '&'] v)

def P2 (v : List Char) : Prop :=
  Wf v ∧ (v = ['&', '&'] ∨ v = ['|', '|'] ∨
    (¬ Occurs ['&', '&'] v ∧ ¬ Occurs ['|', '|'] v))

def P3 (v : List Char) : Prop :=
  Wf v ∧ (v = ['&', '&'] ∨ v = ['|'] ∨
    (¬ Occurs ['&', '&'] v ∧ '|' ∉ v))

def P4 (v : List Char) : Prop :=
  Wf v ∧ (v = ['&', '&'] ∨ v = ['|'] ∨ v = [';'] ∨
    (¬ Occurs ['&', '&'] v ∧ '|' ∉ v ∧ ';' ∉ v))

def P5 (v : List Char) : Prop :=
  Wf v ∧ (v = ['&', '&'] ∨ v = ['|'] ∨ v = [';'] ∨ v = ['>'] ∨
    (¬ Occurs ['&', '&'] v ∧ '|' ∉ v ∧ ';' ∉ v ∧ '>' ∉ v))

def P7 (v : List Char) : Prop :=
  Wf v ∧ (v = ['&', '&'] ∨ v = ['|'] ∨ v = [';'] ∨ v = ['>'] ∨ v = ['<'] ∨
    (¬ Occurs ['&', '&'] v ∧ '|' ∉ v ∧ ';' ∉ v ∧ '>' ∉ v ∧ '<' ∉ v))

theorem hout1 : ∀ w, Wf w → ∀ v ∈ splitW ['&', '&'] w, P1 v := by
  intro w hw v hv
  refine ⟨wf_of_splitW (by decide) hw v hv, ?_⟩
  rcases splitW_spec v hv with rfl | ⟨hocc, _, _⟩
  · exact Or.inl rfl
  · exact Or.inr hocc

theorem hout2 : ∀ w, P1 w → ∀ v ∈ splitW ['|', '|'] w, P2 v := by
  intro w hw v hv
  obtain ⟨hwf, hcase⟩ := hw
  refine ⟨wf_of_splitW (by decide) hwf v hv, ?_⟩
  rcases hcase with rfl | hfree
  · have : splitW ['|', '|'] ['&', '&'] = [['&', '&']] := by decide
    rw [this] at hv
    simp at hv
    subst hv
    exact Or.inl rfl
  · rcases splitW_spec v hv with rfl | ⟨hocc, _, hinf⟩
    · exact Or.inr (Or.inl rfl)
    · exact Or.inr (Or.inr ⟨fun h => hfree (occurs_of_mid hinf h), hocc⟩)

theorem hout3 : ∀ w, P2 w → ∀ v ∈ splitW ['|'] w, P3 v := by
  intro w hw v hv
  obtain ⟨hwf, hcase⟩ := hw
  refine ⟨wf_of_splitW (by decide) hwf v hv, ?_⟩
  rcases hcase with rfl | rfl | ⟨hamp, hpp⟩
  · have : splitW ['|'] ['&', '&'] = [['&', '&']] := by decide
    rw [this] at hv
    simp at hv
    subst hv
    exact Or.inl rfl
  · have : splitW ['|'] ['|', '|'] = [['|'], ['|']] := by decide
    rw [this] at hv
    simp at hv
    subst hv
    exact Or.inr (Or.inl rfl)
  · rcases splitW_spec v hv with rfl | ⟨hocc, _, hinf⟩
    · exact Or.inr (Or.inl rfl)
    · exact Or.inr (Or.inr ⟨fun h => hamp (occurs_of_mid hinf h),
        fun h => hocc (occurs_singleton.mpr h)⟩)

theorem hout4 : ∀ w, P3 w → ∀ v ∈ splitW [';'] w, P4 v := by
  intro w hw v hv
  obtain ⟨hwf, hcase⟩ := hw
  refine ⟨wf_of_splitW (by decide) hwf v hv, ?_⟩
  rcases hcase with rfl | rfl | ⟨hamp, hpipe⟩
  · have : splitW [';'] ['&', '&'] = [['&', '&']] := by decide
    rw [this] at hv
    simp at hv
    subst hv
    exact Or.inl rfl
  · have : splitW [';'] ['|'] = [['|']] := by decide
    rw [this] at hv
    simp at hv
    subst hv
    exact Or.inr (Or.inl rfl)
  · rcases splitW_spec v hv with rfl | ⟨hocc, _, hinf⟩
    · exact Or.inr (Or.inr (Or.inl rfl))
    · exact Or.inr (Or.inr (Or.inr ⟨fun h => hamp (occurs_of_mid hinf h),
        fun h => hpipe (hinf.subset h),
        fun h => hocc (occurs_singleton.mpr h)⟩))

theorem hout5 : ∀ w, P4 w → ∀ v ∈ splitW ['>'] w, P5 v := by
  intro w hw v hv
  obtain ⟨hwf, hcase⟩ := hw
  refine ⟨wf_of_splitW (by decide) hwf v hv, ?_⟩
  rcases hcase with rfl | rfl | rfl | ⟨hamp, hpipe, hsemi⟩
  · have : splitW ['>'] ['&', '&'] = [['&', '&']] := by decide
    rw [this] at hv
    simp at hv
    subst hv
    exact Or.inl rfl
  · have : splitW ['>'] ['|'] = [['|']] := by decide
    rw [this] at hv
    simp at hv
    subst hv
    exact Or.inr (Or.inl rfl)
  · have : splitW ['>'] [';'] = [[';']] := by decide
    rw [this] at hv
    simp at hv
    subst hv
    exact Or.inr (Or.inr (Or.inl rfl))
  · rcases splitW_spec v hv with rfl | ⟨hocc, _, hinf⟩
    · exact Or.inr (Or.inr (Or.inr (Or.inl rfl)))
    · exact Or.inr (Or.inr (Or.inr (Or.inr
        ⟨fun h => hamp (occurs_of_mid hinf h),
         fun h => hpipe (hinf.subset h),
         fun h => hsemi (hinf.subset h),
         fun h => hocc (occurs_singleton.mpr h)⟩)))

theorem hout6 : ∀ w, P5 w → ∀ v ∈ splitW ['>', '>'] w, P5 v := by
  intro w hw v hv
  obtain ⟨⟨hne, hsf⟩, hcase⟩ := hw
  have hno : ¬ Occurs ['>', '>'] w := by
    rcases hcase with rfl | rfl | rfl | rfl | ⟨_, _, _, hgt⟩
    · intro h; have := occurs_pair_mem h; simp at this
    · intro h; have := occurs_length_le h; simp at this
    · intro h; have := occurs_length_le h; simp at this
    · intro h; have := occurs_length_le h; simp at this
    · intro h; exact hgt (occurs_pair_mem h)
  rw [splitW_no_occur hne hno] at hv
  simp at hv
  subst hv
  exact ⟨⟨hne, hsf⟩, hcase⟩

theorem hout7 : ∀ w, P5 w → ∀ v ∈ splitW ['<'] w, P7 v := by
  intro w hw v hv
  obtain ⟨hwf, hcase⟩ := hw
  refine ⟨wf_of_splitW (by decide) hwf v hv, ?_⟩
  rcases hcase with rfl | rfl | rfl | rfl | ⟨hamp, hpipe, hsemi, hgt⟩
  · have : splitW ['<'] ['&', '&'] = [['&', '&']] := by decide
    rw [this] at hv
    simp at hv
    subst hv
    exact Or.inl rfl
  · have : splitW ['<'] ['|'] = [['|']] := by decide
    rw [this] at hv
    simp at hv
    subst hv
    exact Or.inr (Or.inl rfl)
  · have : splitW ['<'] [';'] = [[';']] := by decide
    rw [this] at hv
    simp at hv
    subst hv
    exact Or.inr (Or.inr (Or.inl rfl))
  · have : splitW ['<'] ['>'] = [['>']] := by decide
    rw [this] at hv
    simp at hv
    subst hv
    exact Or.inr (Or.inr (Or.inr (Or.inl rfl)))
  · rcases splitW_spec v hv with rfl | ⟨hocc, _, hinf⟩
    · exact Or.inr (Or.inr (Or.inr (Or.inr (Or.inl rfl))))
    · exact Or.inr (Or.inr (Or.inr (Or.inr (Or.inr
        ⟨fun h => hamp (occurs_of_mid hinf h),
         fun h => hpipe (hinf.subset h),
         fun h => hsemi (hinf.subset h),
         fun h => hgt (hinf.subset h),
         fun h => hocc (occurs_singleton.mpr h)⟩))))

theorem hout8 : ∀ w, P7 w → ∀ v ∈ splitW ['<', '<'] w, P7 v := by
  intro w hw v hv
  obtain ⟨⟨hne, hsf⟩, hcase⟩ := hw
  have hno : ¬ Occurs ['<', '<'] w := by
    rcases hcase with rfl | rfl | rfl | rfl | rfl | ⟨_, _, _, _, hlt⟩
    · intro h; have := occurs_pair_mem h; simp at this
    · intro h; have := occurs_length_le h; simp at this
    · intro h; have := occurs_length_le h; simp at this
    · intro h; have := occurs_length_le h; simp at this
    · intro h; have := occurs_length_le h; simp at this
    · intro h; exact hlt (occurs_pair_mem h)
  rw [splitW_no_occur hne hno] at hv
  simp at hv
  subst hv
  exact ⟨⟨hne, hsf⟩, hcase⟩

theorem opsChain_eq (ws : List (List Char)) :
    opsChain ws =
      ((((((((ws.flatMap (splitW ['&', '&'])).flatMap
        (splitW ['|', '|'])).flatMap (splitW ['|'])).flatMap
        (splitW [';'])).flatMap (splitW ['>'])).flatMap
        (splitW ['>', '>'])).flatMap (splitW ['<'])).flatMap
        (splitW ['<', '<'])) := by
  simp only [opsChain, operators, List.foldl_cons, List.foldl_nil]

/-- Every word in the operator-pass output has one of the stable
shapes. -/
theorem opsChain_stable (ws : List (List Char)) (h : ∀ w ∈ ws, Wf w) :
    ∀ v ∈ opsChain ws, P7 v := by
  intro v hv
  rw [opsChain_eq] at hv
  have h1 := flat_step hout1 ws h
  have h2 := flat_step hout2 _ h1
  have h3 := flat_step hout3 _ h2
  have h4 := flat_step hout4 _ h3
  have h5 := flat_step hout5 _ h4
  have h6 := flat_step hout6 _ h5
  have h7 := flat_step hout7 _ h6
  have h8 := flat_step hout8 _ h7
  exact h8 v hv

set_option maxHeartbeats 1000000 in
/-- The full pass chain fixes every stable word. -/
theorem opsChain_single (v : List Char) (h : P7 v) : opsChain [v] = [v] := by
  obtain ⟨⟨hne, hsf⟩, hcase⟩ := h
  rcases hcase with rfl | rfl | rfl | rfl | rfl | ⟨hamp, hpipe, hsemi, hgt, hlt⟩
  · decide
  · decide
  · decide
  · decide
  · decide
  · have e1 : splitW ['&', '&'] v = [v] := splitW_no_occur hne hamp
    have e2 : splitW ['|', '|'] v = [v] := splitW_no_occur hne
      (fun h => hpipe (occurs_pair_mem h))
    have e3 : splitW ['|'] v = [v] := splitW_no_occur hne
      (fun h => hpipe (occurs_singleton.mp h))
    have e4 : splitW [';'] v = [v] := splitW_no_occur hne
      (fun h => hsemi (occurs_singleton.mp h))
    have e5 : splitW ['>'] v = [v] := splitW_no_occur hne
      (fun h => hgt (occurs_singleton.mp h))
    have e6 : splitW ['>', '>'] v = [v] := splitW_no_occur hne
      (fun h => hgt (occurs_pair_mem h))
    have e7 : splitW ['<'] v = [v] := splitW_no_occur hne
      (fun h => hlt (occurs_singleton.mp h))
    have e8 : splitW ['<', '<'] v = [v] := splitW_no_occur hne
      (fun h => hlt (occurs_pair_mem h))
    simp [opsChain, operators, e1, e2, e3, e4, e5, e6, e7, e8]

theorem opsChain_nil : opsChain [] = [] := rfl

theorem opsChain_flat : ∀ vs : List (List Char), (∀ v ∈ vs, P7 v) →
    opsChain vs = vs := by
  intro vs
  induction vs with
  | nil => intro _; rfl
  | cons v vs ih =>
      intro h
      have : v :: vs = [v] ++ vs := rfl
      rw [this, opsChain_append, opsChain_single v (h v (List.mem_cons_self _ _)),
        ih (fun u hu => h u (List.mem_cons_of_mem _ hu))]

/-- Idempotence of the word-level pass chain. -/
theorem opsChain_idem (ws : List (List Char)) (h : ∀ w ∈ ws, Wf w) :
    opsChain (opsChain ws) = opsChain ws :=
  opsChain_flat _ (opsChain_stable ws h)

/-- The pass chain keeps the text nonempty and preserves the first
character of the first word. -/
theorem foldl_flat_head :
    ∀ ops : List (List Char), (∀ op ∈ ops, op ≠ [] ∧ SpaceFree op) →
      ∀ (w : List Char) (ws : List (List Char)), Wf w → (∀ u ∈ ws, Wf u) →
      ∃ v vs, ops.foldl (fun ws op => ws.flatMap (splitW op)) (w :: ws) = v :: vs ∧
        v.head? = w.head? ∧ Wf v ∧ (∀ u ∈ vs, Wf u) := by
  intro ops
  induction ops with
  | nil =>
      intro _ w ws hw hws
      exact ⟨w, ws, rfl, rfl, hw, hws⟩
  | cons op ops ih =>
      intro hops w ws hw hws
      obtain ⟨hne, hsf⟩ := hops op (List.mem_cons_self _ _)
      obtain ⟨o, os, rfl⟩ : ∃ o os, op = o :: os := by
        cases op with
        | nil => exact absurd rfl hne
        | cons o os => exact ⟨o, os, rfl⟩
      obtain ⟨v0, vs0, heq, hhead⟩ := @splitW_head o os w hw.1
      have hflat : (w :: ws).flatMap (splitW (o :: os)) =
          v0 :: (vs0 ++ ws.flatMap (splitW (o :: os))) := by
        simp [heq]
      have hallwf : ∀ u ∈ (w :: ws).flatMap (splitW (o :: os)), Wf u := by
        intro u hu
        obtain ⟨x, hx, hux⟩ := List.mem_flatMap.mp hu
        rcases List.mem_cons.mp hx with rfl | hx
        · exact wf_of_splitW hsf hw u hux
        · exact wf_of_splitW hsf (hws x hx) u hux
      have hv0 : Wf v0 := by
        refine hallwf v0 ?_
        rw [hflat]
        exact List.mem_cons_self _ _
      have hrest : ∀ u ∈ vs0 ++ ws.flatMap (splitW (o :: os)), Wf u := by
        intro u hu
        refine hallwf u ?_
        rw [hflat]
        exact List.mem_cons_of_mem _ hu
      simp only [List.foldl_cons]
      rw [hflat]
      obtain ⟨v, vs, heq2, hh2, hwv, hwvs⟩ := ih
        (fun p hp => hops p (List.mem_cons_of_mem _ hp)) v0 _ hv0 hrest
      exact ⟨v, vs, heq2, by rw [hh2, hhead], hwv, hwvs⟩

theorem opsChain_head {w : List Char} {ws : List (List Char)} (hw : Wf w)
    (hws : ∀ u ∈ ws, Wf u) :
    ∃ v vs, opsChain (w :: ws) = v :: vs ∧ v.head? = w.head? :=
  match foldl_flat_head operators operators_wf w ws hw hws with
  | ⟨v, vs, heq, hh, _, _⟩ => ⟨v, vs, heq, hh⟩

/-!
Canonical form: `strip (collapseSp u)` equals the words of `u` joined by
single spaces.  This identifies the final `re.sub(r'\s+', ' ', ·).strip()`
step of `clean_command` with `joinSp ∘ words`.
-/

theorem wordsAux_all_sp {z : List Char} (hz : ∀ c ∈ z, isSp c = true) :
    ∀ acc, wordsAux acc z = if acc.isEmpty then [] else [acc] := by
  induction z with
  | nil => intro acc; rfl
  | cons c rest ih =>
      intro acc
      rw [wordsAux_sp (hz c (List.mem_cons_self _ _))]
      rw [ih (fun d hd => hz d (List.mem_cons_of_mem _ hd)) []]
      simp

theorem wordsAux_append_sp {z : List Char} (hz : ∀ c ∈ z, isSp c = true) :
    ∀ (y acc : List Char), wordsAux acc (y ++ z) = wordsAux acc y := by
  intro y
  induction y with
  | nil =>
      intro acc
      rw [List.nil_append, wordsAux_all_sp hz, wordsAux_nil]
  | cons c rest ih =>
      intro acc
      by_cases hc : isSp c = true
      · rw [List.cons_append, wordsAux_sp hc, wordsAux_sp hc, ih]
      · have hc' : isSp c = false := by simpa using hc
        rw [List.cons_append, wordsAux_nsp hc', wordsAux_nsp hc', ih]

/-- Any list splits into its trailing whitespace run and the rest. -/
theorem rev_strip_decomp (a : List Char) :
    a = (a.reverse.dropWhile isSp).reverse ++ (a.reverse.takeWhile isSp).reverse := by
  conv_lhs => rw [← List.reverse_reverse a]
  rw [← List.reverse_append, List.takeWhile_append_dropWhile]

theorem words_strip (u : List Char) : words (strip u) = words u := by
  set a := u.dropWhile isSp with ha
  have h1 : words a = words u := words_dropWhile_sp u
  have hz : ∀ c ∈ (a.reverse.takeWhile isSp).reverse, isSp c = true := by
    intro c hc
    rw [List.mem_reverse] at hc
    exact List.mem_takeWhile_imp hc
  have h2 : words a = words ((a.reverse.dropWhile isSp).reverse) := by
    conv_lhs => rw [rev_strip_decomp a]
    exact wordsAux_append_sp hz _ []
  rw [strip, ← ha, ← h2, h1]

theorem words_collapse :
    ∀ (fuel : Nat) (v acc : List Char), v.length ≤ fuel →
      wordsAux acc (collapseF fuel v) = wordsAux acc v := by
  intro fuel
  induction fuel with
  | zero =>
      intro v acc hlen
      have : v = [] := List.length_eq_zero.mp (Nat.le_zero.mp hlen)
      subst this
      rfl
  | succ f ih =>
      intro v acc hlen
      cases v with
      | nil => rfl
      | cons c rest =>
          by_cases hc : isSp c = true
          · simp only [collapseF, hc, if_true]
            rw [wordsAux_sp (by decide), wordsAux_sp hc]
            have hlen2 : (rest.dropWhile isSp).length ≤ f := by
              have := len_dropWhile_le isSp rest
              simp only [List.length_cons] at hlen
              omega
            rw [ih _ [] hlen2]
            have : wordsAux [] (rest.dropWhile isSp) = wordsAux [] rest :=
              words_dropWhile_sp rest
            rw [this]
          · have hc' : isSp c = false := by simpa using hc
            simp only [collapseF, hc', Bool.false_eq_true, if_false]
            rw [wordsAux_nsp hc', wordsAux_nsp hc']
            exact ih rest (acc ++ [c]) (by simpa using hlen)

theorem collapse_only_sp :
    ∀ (fuel : Nat) (v : List Char), v.length ≤ fuel →
      ∀ c ∈ collapseF fuel v, isSp c = true → c = ' ' := by
  intro fuel
  induction fuel with
  | zero =>
      intro v hlen c hc
      have : v = [] := List.length_eq_zero.mp (Nat.le_zero.mp hlen)
      subst this
      cases hc
  | succ f ih =>
      intro v hlen c hc hsp
      cases v with
      | nil => cases hc
      | cons d rest =>
          by_cases hd : isSp d = true
          · simp only [collapseF, hd, if_true] at hc
            rcases List.mem_cons.mp hc with rfl | hc
            · rfl
            · have hlen2 : (rest.dropWhile isSp).length ≤ f := by
                have := len_dropWhile_le isSp rest
                simp only [List.length_cons] at hlen
                omega
              exact ih _ hlen2 c hc hsp
          · have hd' : isSp d = false := by simpa using hd
            simp only [collapseF, hd', Bool.false_eq_true, if_false] at hc
            rcases List.mem_cons.mp hc with rfl | hc
            · rw [hsp] at hd'
              cases hd'
            · exact ih rest (by simpa using hlen) c hc hsp

theorem collapse_head_nsp {fuel : Nat} {c : Char} {rest : List Char}
    (hc : isSp c = false) :
    (collapseF fuel (c :: rest)).head? = some c := by
  cases fuel with
  | zero => rfl
  | succ f => simp [collapseF, hc]

/-- Adjacent characters of the collapsed text are never both
whitespace. -/
theorem collapse_chain :
    ∀ (fuel : Nat) (v : List Char), v.length ≤ fuel →
      (collapseF fuel v).Chain'
        (fun a b => ¬(isSp a = true ∧ isSp b = true)) := by
  intro fuel
  induction fuel with
  | zero =>
      intro v hlen
      have : v = [] := List.length_eq_zero.mp (Nat.le_zero.mp hlen)
      subst this
      simp [collapseF]
  | succ f ih =>
      intro v hlen
      cases v with
      | nil => simp [collapseF]
      | cons c rest =>
          by_cases hc : isSp c = true
          · simp only [collapseF, hc, if_true]
            rw [List.chain'_cons']
            have hlen2 : (rest.dropWhile isSp).length ≤ f := by
              have := len_dropWhile_le isSp rest
              simp only [List.length_cons] at hlen
              omega
            refine ⟨?_, ih _ hlen2⟩
            intro b hb
            cases hrest : rest.dropWhile isSp with
            | nil =>
                rw [hrest] at hb
                cases fuel' : f with
                | zero => rw [fuel'] at hb; cases hb
                | succ f2 => rw [fuel'] at hb; cases hb
            | cons d r =>
                have hd : isSp d = false := head?_dropWhile_not d (by rw [hrest]; rfl)
                rw [hrest, collapse_head_nsp hd] at hb
                cases hb
                intro hcon
                rw [hd] at hcon
                exact absurd hcon.2 (by simp)
          · have hc' : isSp c = false := by simpa using hc
            simp only [collapseF, hc', Bool.false_eq_true, if_false]
            rw [List.chain'_cons']
            refine ⟨?_, ih rest (by simpa using hlen)⟩
            intro b hb hcon
            rw [hc'] at hcon
            exact absurd hcon.1 (by simp)

/-- The right-strip (drop trailing whitespace) part of `strip`. -/
def stripR (s : List Char) : List Char := (s.reverse.dropWhile isSp).reverse

theorem strip_eq_stripR (u : List Char) : strip u = stripR (u.dropWhile isSp) := rfl

theorem stripR_append_sp (a : List Char) :
    a = stripR a ++ (a.reverse.takeWhile isSp).reverse :=
  rev_strip_decomp a

theorem strip_head_nsp {u : List Char} :
    ∀ d, (strip u).head? = some d → isSp d = false := by
  intro d hd
  rw [strip_eq_stripR] at hd
  cases hs : stripR (u.dropWhile isSp) with
  | nil => rw [hs] at hd; cases hd
  | cons e r =>
      rw [hs] at hd
      cases hd
      have hdec := stripR_append_sp (u.dropWhile isSp)
      rw [hs] at hdec
      have hh : (u.dropWhile isSp).head? = some d := by rw [hdec]; rfl
      exact head?_dropWhile_not d hh

theorem strip_revhead_nsp {u : List Char} :
    ∀ d, (strip u).reverse.head? = some d → isSp d = false := by
  intro d hd
  have : (strip u).reverse = (u.dropWhile isSp).reverse.dropWhile isSp := by
    rw [strip, List.reverse_reverse]
  rw [this] at hd
  exact head?_dropWhile_not d hd

theorem strip_subset (u : List Char) : ∀ c ∈ strip u, c ∈ u := by
  intro c hc
  rw [strip, List.mem_reverse] at hc
  have h1 : c ∈ (u.dropWhile isSp).reverse := List.dropWhile_subset _ hc
  rw [List.mem_reverse] at h1
  exact List.dropWhile_subset _ h1

theorem chain'_of_suffix {R : Char → Char → Prop} {a b : List Char}
    (hs : a <:+ b) (h : b.Chain' R) : a.Chain' R := by
  obtain ⟨p, rfl⟩ := hs
  exact (List.chain'_append.mp h).2.1

theorem chain'_of_prefix {R : Char → Char → Prop} {a b : List Char}
    (hs : a <+: b) (h : b.Chain' R) : a.Chain' R := by
  obtain ⟨p, rfl⟩ := hs
  exact (List.chain'_append.mp h).1

theorem strip_chain {R : Char → Char → Prop} {u : List Char}
    (h : u.Chain' R) : (strip u).Chain' R := by
  have h1 : (u.dropWhile isSp).Chain' R :=
    chain'_of_suffix (List.dropWhile_suffix _) h
  rw [strip_eq_stripR]
  refine chain'_of_prefix ?_ h1
  exact ⟨(( u.dropWhile isSp).reverse.takeWhile isSp).reverse,
    (stripR_append_sp _).symm⟩

theorem strip_eq_self {s : List Char}
    (h1 : ∀ d, s.head? = some d → isSp d = false)
    (h2 : ∀ d, s.reverse.head? = some d → isSp d = false) :
    strip s = s := by
  have e1 : s.dropWhile isSp = s := by
    cases s with
    | nil => rfl
    | cons c rest =>
        have := h1 c rfl
        simp [List.dropWhile_cons, this]
  have e2 : s.reverse.dropWhile isSp = s.reverse := by
    cases hs : s.reverse with
    | nil => simp
    | cons c rest =>
        have := h2 c (by rw [hs]; rfl)
        simp [List.dropWhile_cons, this]
  rw [strip, e1, e2, List.reverse_reverse]

theorem words_eq_nil_all_sp {v : List Char} (h : words v = []) :
    ∀ c ∈ v, isSp c = true := by
  induction v with
  | nil => intro c hc; cases hc
  | cons c rest ih =>
      intro d hd
      by_cases hc : isSp c = true
      · rcases List.mem_cons.mp hd with rfl | hd
        · exact hc
        · rw [words_cons_sp hc] at h
          exact ih h d hd
      · have hc' : isSp c = false := by simpa using hc
        rw [words_cons_nsp hc'] at h
        cases h

/-- A text whose whitespace consists of single interior plain spaces
equals its words joined by single spaces. -/
theorem joinSp_words_eq_self :
    ∀ n : Nat, ∀ s : List Char, s.length ≤ n →
      (∀ c ∈ s, isSp c = true → c = ' ') →
      s.Chain' (fun a b => ¬(isSp a = true ∧ isSp b = true)) →
      (∀ d, s.head? = some d → isSp d = false) →
      (∀ d, s.reverse.head? = some d → isSp d = false) →
      joinSp (words s) = s := by
  intro n
  induction n with
  | zero =>
      intro s hlen _ _ _ _
      have : s = [] := List.length_eq_zero.mp (Nat.le_zero.mp hlen)
      subst this
      rfl
  | succ n ih =>
      intro s hlen hall hchain hhead hrev
      cases s with
      | nil => rfl
      | cons c rest =>
          have hc : isSp c = false := hhead c rfl
          rw [words_cons_nsp hc]
          have hsdec : rest.takeWhile nsp ++ rest.dropWhile nsp = rest :=
            List.takeWhile_append_dropWhile nsp rest
          cases hrest : rest.dropWhile nsp with
          | nil =>
              rw [hrest, List.append_nil] at hsdec
              rw [words_nil]
              simp [joinSp, hsdec]
          | cons d r2 =>
              have hdsp : isSp d = true := by
                have h0 : nsp d = false := head?_dropWhile_not d (by rw [hrest]; rfl)
                simpa [nsp] using h0
              have hdmem : d ∈ rest := by
                have : d ∈ rest.dropWhile nsp := by rw [hrest]; simp
                exact List.dropWhile_subset _ this
              have hd' : d = ' ' :=
                hall d (List.mem_cons_of_mem _ hdmem) hdsp
              rw [hrest] at hsdec
              clear hrest
              have hrev_rest : rest.reverse =
                  r2.reverse ++ d :: (rest.takeWhile nsp).reverse := by
                conv_lhs => rw [← hsdec]
                rw [List.reverse_append, List.reverse_cons, List.append_assoc]
                simp
              by_cases hr2 : words r2 = []
              · exfalso
                cases hr2nil : r2 with
                | nil =>
                    subst hr2nil
                    have : (c :: rest).reverse.head? = some d := by
                      rw [List.reverse_cons, head?_append_left, hrev_rest]
                      · simp
                      · rw [hrev_rest]; simp
                    have := hrev d this
                    rw [hdsp] at this
                    cases this
                | cons e0 r3 =>
                    have hallsp := words_eq_nil_all_sp hr2
                    obtain ⟨e, er, her⟩ : ∃ e er, r2.reverse = e :: er := by
                      rw [hr2nil]
                      cases h3 : (e0 :: r3).reverse with
                      | nil =>
                          have := congrArg List.length h3
                          simp at this
                      | cons e er => exact ⟨e, er, rfl⟩
                    have hemem : e ∈ r2 := by
                      rw [← List.mem_reverse, her]
                      simp
                    have : (c :: rest).reverse.head? = some e := by
                      rw [List.reverse_cons, head?_append_left, hrev_rest,
                        her]
                      · rfl
                      · rw [hrev_rest, her]; simp
                    have h4 := hrev e this
                    rw [hallsp e hemem] at h4
                    cases h4
              · have hr2ne : r2 ≠ [] := by
                  intro h
                  rw [h] at hr2
                  exact hr2 rfl
                rw [words_cons_sp hdsp]
                rw [joinSp_cons]
                rw [if_neg (by simpa using hr2)]
                have hlen2 : r2.length ≤ n := by
                  have := congrArg List.length hsdec
                  simp only [List.length_append, List.length_cons] at this
                  simp only [List.length_cons] at hlen
                  omega
                have hsub2 : ∀ x ∈ r2, x ∈ c :: rest := by
                  intro x hx
                  refine List.mem_cons_of_mem _ ?_
                  rw [← hsdec]
                  exact List.mem_append.mpr (Or.inr (List.mem_cons_of_mem _ hx))
                have hshape : c :: rest =
                    (c :: rest.takeWhile nsp ++ [d]) ++ r2 := by
                  conv_lhs => rw [← hsdec]
                  simp
                have hchain2 := List.chain'_append.mp (by rw [← hshape]; exact hchain)
                have hhead2 : ∀ x, r2.head? = some x → isSp x = false := by
                  intro x hx
                  have hlast : (c :: rest.takeWhile nsp ++ [d]).getLast? = some d := by
                    rw [List.getLast?_concat]
                  have := hchain2.2.2 d (by rw [hlast]; simp) x (by rw [hx]; simp)
                  by_cases hxs : isSp x = true
                  · exact absurd ⟨hdsp, hxs⟩ this
                  · simpa using hxs
                have hrev2 : ∀ x, r2.reverse.head? = some x → isSp x = false := by
                  intro x hx
                  refine hrev x ?_
                  rw [hshape, List.reverse_append, head?_append_left, hx]
                  intro h
                  rw [h] at hx
                  cases hx
                have hih := ih r2 hlen2
                  (fun x hx hs => hall x (hsub2 x hx) hs)
                  hchain2.2.1 hhead2 hrev2
                rw [hih]
                conv_rhs => rw [← hsdec]
                rw [hd']
                simp

/-- The final whitespace-normalization step of `clean_command` computes
the words of the text joined by single spaces. -/
theorem strip_collapse_canon (u : List Char) :
    strip (collapseSp u) = joinSp (words u) := by
  have hPA : ∀ c ∈ strip (collapseSp u), isSp c = true → c = ' ' :=
    fun c hc => collapse_only_sp u.length u (le_refl _) c (strip_subset _ c hc)
  have hPB := strip_chain (collapse_chain u.length u (le_refl _))
  have h := joinSp_words_eq_self (strip (collapseSp u)).length
    (strip (collapseSp u)) (le_refl _) hPA hPB
    (@strip_head_nsp (collapseSp u)) (@strip_revhead_nsp (collapseSp u))
  rw [words_strip] at h
  have h2 : words (collapseSp u) = words u := words_collapse u.length u [] (le_refl _)
  rw [h2] at h
  exact h.symm

/-! Idempotence of `clean_command`. -/

theorem clean_command_some {x s : List Char} (h : clean_command x = some s) :
    (strip x).isEmpty = false ∧ (strip x).head? ≠ some '#' ∧
    s = strip (collapseSp (operators.foldl (fun s op => subOp op s) (strip x))) ∧
    s = joinSp (opsChain (words (strip x))) := by
  by_cases h1 : (strip x).isEmpty
  · rw [clean_command] at h
    simp only [h1, if_true] at h
    cases h
  · by_cases h2 : (strip x).head? = some '#'
    · rw [clean_command] at h
      simp only [h1, Bool.false_eq_true, if_false, h2, if_true] at h
      cases h
    · rw [clean_command] at h
      simp only [h1, Bool.false_eq_true, if_false, h2, if_true] at h
      have h3 := Option.some.inj h
      refine ⟨by simpa using h1, h2, h3.symm, ?_⟩
      rw [← h3, strip_collapse_canon, words_opsChain]

theorem clean_command_idem {x s : List Char}
    (h : clean_command x = some s) : clean_command s = some s := by
  obtain ⟨hne, hhash, hraw, hs⟩ := clean_command_some h
  have hwf : ∀ w ∈ words (strip x), Wf w := fun w hw =>
    ⟨(words_wf _ w hw).1, (words_wf _ w hw).2⟩
  have hchwf : ∀ v ∈ opsChain (words (strip x)), Wf v := fun v hv =>
    (opsChain_stable _ hwf v hv).1
  -- the output strips to itself
  have hstrip : strip s = s := by
    rw [hraw]
    exact strip_eq_self (fun d hd => strip_head_nsp d hd)
      (fun d hd => strip_revhead_nsp d hd)
  -- the output is nonempty with the same first character as the input
  obtain ⟨c, t', ht⟩ : ∃ c t', strip x = c :: t' := by
    cases hx : strip x with
    | nil => rw [hx] at hne; cases hne
    | cons c t' => exact ⟨c, t', rfl⟩
  have hcns : isSp c = false := strip_head_nsp c (by rw [ht]; rfl)
  have hwords : words (strip x) =
      (c :: t'.takeWhile nsp) :: words (t'.dropWhile nsp) := by
    rw [ht, words_cons_nsp hcns]
  obtain ⟨v, vs, hchain_eq, hvhead⟩ :=
    @opsChain_head (c :: t'.takeWhile nsp) (words (t'.dropWhile nsp))
      ⟨by simp, by
        intro d hd
        rcases List.mem_cons.mp hd with rfl | hd
        · exact hcns
        · exact spaceFree_takeWhile_nsp t' d hd⟩
      (by
        intro u hu
        refine hwf u ?_
        rw [hwords]
        exact List.mem_cons_of_mem _ hu)
  have hchain_eq' : opsChain (words (strip x)) = v :: vs := by
    rw [hwords, hchain_eq]
  have hvne : v ≠ [] := by
    have : v ∈ opsChain (words (strip x)) := by
      rw [hchain_eq']
      exact List.mem_cons_self _ _
    exact (hchwf v this).1
  have hshead : s.head? = some c := by
    rw [hs, hchain_eq']
    rw [joinSp_cons]
    cases vs with
    | nil => simpa [head?_append_left hvne] using hvhead
    | cons a b => simpa [head?_append_left hvne] using hvhead
  have hsne : s.isEmpty = false := by
    cases hcs : s with
    | nil => rw [hcs] at hshead; cases hshead
    | cons a b => rfl
  have hshash : s.head? ≠ some '#' := by
    rw [hshead]
    intro hcon
    have : c = '#' := by simpa using hcon
    rw [ht, this] at hhash
    exact hhash rfl
  -- evaluate `clean_command` on the output
  rw [clean_command]
  simp only [hstrip, hsne, Bool.false_eq_true, if_false, hshash, if_true]
  have hws : words s = opsChain (words (strip x)) := by
    rw [hs]
    exact words_joinSp (fun w hw => ⟨(hchwf w hw).1, (hchwf w hw).2⟩)
  rw [strip_collapse_canon, words_opsChain, hws,
    opsChain_idem _ hwf, ← hs]

/-- C3: command normalization (`clean_command`) is idempotent — whenever
normalization of a text yields a result, normalizing that result again
yields the same string — and it re-spaces the operators
`&& || | ; > >> < <<` into one canonical form, so that texts differing
only in whitespace around these operators, such as `git fetch&&git log`
and `git fetch && git log`, normalize to the identical pattern string. -/
theorem claim_C3 :
    (∀ x s : List Char, clean_command x = some s → clean_command s = some s) ∧
    clean_command "git fetch&&git log".toList =
      clean_command "git fetch && git log".toList ∧
    clean_command "git fetch&&git log".toList =
      some "git fetch && git log".toList :=
  ⟨fun _ _ h => clean_command_idem h, by decide, by decide⟩

/-- Witness for C3: the idempotence statement applied at the concrete
input `ls&&pwd`, whose normalization is `ls && pwd`. -/
theorem claim_C3_witness :
    clean_command "ls && pwd".toList = some "ls && pwd".toList :=
  claim_C3.1 "ls&&pwd".toList "ls && pwd".toList (by decide)

/-!
Embedding of `count_non_adjacent_days` (lines 187-200).  Calendar dates
are embedded as integers counting days.  Python's `sorted` on a set of
dates is embedded as insertion sort applied to a duplicate-free list of
days, and `(sorted_dates[i] - sorted_dates[i-1]).days` is integer
subtraction.
-/

/-- The loop of `count_non_adjacent_days`: given the previous sorted
date, add one for each later date whose gap from its predecessor
exceeds one day. -/
def countAux : Int → List Int → Nat
  | _, [] => 0
  | prev, d :: rest => (if d - prev > 1 then 1 else 0) + countAux d rest

/-- `count_non_adjacent_days` (lines 187-200): 0 on the empty set;
otherwise sort the dates ascending, start the count at 1, and increment
for each consecutive pair more than one calendar day apart. -/
def count_non_adjacent_days (dates : List Int) : Nat :=
  match dates.insertionSort (· ≤ ·) with
  | [] => 0
  | d :: rest => 1 + countAux d rest

theorem countAux_le_length : ∀ (l : List Int) (prev : Int),
    countAux prev l ≤ l.length := by
  intro l
  induction l with
  | nil => intro prev; exact Nat.le_refl 0
  | cons d rest ih =>
      intro prev
      show (if d - prev > 1 then 1 else 0) + countAux d rest ≤ rest.length + 1
      have := ih d
      by_cases h : d - prev > 1
      · simp only [h, if_true]
        omega
      · simp only [h, if_false]
        omega

/-- On a strictly sorted suffix, the loop counts exactly the dates whose
predecessor day is absent from the tail (including the pivot). -/
theorem countAux_runs : ∀ (l : List Int) (prev : Int),
    (prev :: l).Sorted (· < ·) →
    countAux prev l =
      (l.filter (fun d => decide ((d - 1) ∉ prev :: l))).length := by
  intro l
  induction l with
  | nil => intro prev _; rfl
  | cons d rest ih =>
      intro prev hsort
      obtain ⟨hprev, hsort'⟩ := List.sorted_cons.mp hsort
      have hpd : prev < d := hprev d (List.mem_cons_self _ _)
      obtain ⟨hd, hsort''⟩ := List.sorted_cons.mp hsort'
      have hmemd : ((d - 1) ∈ prev :: d :: rest) ↔ d - prev = 1 := by
        simp only [List.mem_cons]
        constructor
        · rintro (h | h | h)
          · omega
          · omega
          · have := hd _ h
            omega
        · intro h
          left
          omega
      have hpdval : (decide ((d - 1) ∉ prev :: d :: rest)) = decide (d - prev > 1) := by
        by_cases h : d - prev = 1
        · have : (d - 1) ∈ prev :: d :: rest := hmemd.mpr h
          simp [this, h]
        · have : (d - 1) ∉ prev :: d :: rest := fun hc => h (hmemd.mp hc)
          have h2 : d - prev > 1 := by omega
          simp [this, h2]
      have hcongr : ∀ e ∈ rest,
          (decide ((e - 1) ∉ prev :: d :: rest)) =
            (decide ((e - 1) ∉ d :: rest)) := by
        intro e he
        have hde : d < e := hd e he
        have hne : e - 1 ≠ prev := by omega
        by_cases h : (e - 1) ∈ d :: rest
        · have h2 : (e - 1) ∈ prev :: d :: rest := List.mem_cons_of_mem _ h
          simp [h, h2]
        · have h2 : (e - 1) ∉ prev :: d :: rest := by
            intro hc
            rcases List.mem_cons.mp hc with hc | hc
            · exact hne hc
            · exact h hc
          simp [h, h2]
      show (if d - prev > 1 then 1 else 0) + countAux d rest = _
      rw [ih d hsort', List.filter_cons]
      rw [hpdval, List.filter_congr hcongr]
      by_cases h : d - prev > 1
      · simp [h]
        omega
      · simp [h]

/-- Sorted-order and permutation facts about the embedded sort. -/
theorem count_sort_facts (D : List Int) (hD : D.Nodup) :
    (D.insertionSort (· ≤ ·)).Sorted (· < ·) ∧
      List.Perm (D.insertionSort (· ≤ ·)) D := by
  have hperm : List.Perm (D.insertionSort (· ≤ ·)) D := List.perm_insertionSort _ D
  have hle : (D.insertionSort (· ≤ ·)).Sorted (· ≤ ·) :=
    List.sorted_insertionSort _ D
  have hnd : (D.insertionSort (· ≤ ·)).Nodup := hperm.nodup_iff.mpr hD
  exact ⟨hle.lt_of_le hnd, hperm⟩

/-- Run characterization: `count_non_adjacent_days` of a duplicate-free
date list equals the number of dates whose previous day is absent —
that is, the number of first days of maximal runs of consecutive
days. -/
theorem count_non_adjacent_days_runs (D : List Int) (hD : D.Nodup) :
    count_non_adjacent_days D =
      (D.filter (fun d => decide ((d - 1) ∉ D))).length := by
  obtain ⟨hsort, hperm⟩ := count_sort_facts D hD
  have hlen : ∀ p : Int → Bool, (D.filter p).length =
      ((D.insertionSort (· ≤ ·)).filter p).length := by
    intro p
    exact ((hperm.filter p).length_eq).symm
  rw [count_non_adjacent_days]
  cases hL : D.insertionSort (· ≤ ·) with
  | nil =>
      rw [hL] at hperm
      have : D = [] := hperm.symm.eq_nil
      subst this
      rfl
  | cons d rest =>
      rw [hL] at hsort hperm
      have hcongrD : ∀ e ∈ D,
          (decide ((e - 1) ∉ D)) = (decide ((e - 1) ∉ d :: rest)) := by
        intro e _
        by_cases h : (e - 1) ∈ D
        · have h2 : (e - 1) ∈ d :: rest := hperm.mem_iff.mpr h
          simp [h, h2]
        · have h2 : (e - 1) ∉ d :: rest := fun hc => h (hperm.mem_iff.mp hc)
          simp [h, h2]
      have hfilter : (D.filter (fun e => decide ((e - 1) ∉ D))).length =
          ((d :: rest).filter (fun e => decide ((e - 1) ∉ d :: rest))).length := by
        rw [List.filter_congr hcongrD]
        exact ((hperm.symm).filter _).length_eq
      rw [hfilter]
      have hd : ∀ e ∈ rest, d < e :=
        (List.sorted_cons.mp hsort).1
      have hdmin : (d - 1) ∉ d :: rest := by
        intro hc
        rcases List.mem_cons.mp hc with hc | hc
        · omega
        · have := hd _ hc
          omega
      rw [List.filter_cons]
      simp only [hdmin, decide_not, decide_True]
      rw [countAux_runs rest d hsort]
      simp
      omega

/-- Total count bounds. -/
theorem count_non_adjacent_days_bounds (D : List Int) (hne : D ≠ []) :
    1 ≤ count_non_adjacent_days D ∧ count_non_adjacent_days D ≤ D.length := by
  have hperm : List.Perm (D.insertionSort (· ≤ ·)) D := List.perm_insertionSort _ D
  rw [count_non_adjacent_days]
  cases hL : D.insertionSort (· ≤ ·) with
  | nil =>
      rw [hL] at hperm
      exact absurd hperm.symm.eq_nil hne
  | cons d rest =>
      rw [hL] at hperm
      have hlen : rest.length + 1 = D.length := by
        have := hperm.length_eq
        simpa using this
      have := countAux_le_length rest d
      have hred : (match d :: rest with
        | [] => 0
        | d :: rest => 1 + countAux d rest) = 1 + countAux d rest := rfl
      rw [hred]
      constructor
      · omega
      · omega

theorem count_non_adjacent_days_eq_card_iff (D : List Int) (hD : D.Nodup) :
    count_non_adjacent_days D = D.length ↔ ∀ a ∈ D, a + 1 ∉ D := by
  rw [count_non_adjacent_days_runs D hD]
  constructor
  · intro h a ha hcon
    have hsub : List.Sublist (D.filter (fun d => decide ((d - 1) ∉ D))) D :=
      List.filter_sublist D
    have heq : D.filter (fun d => decide ((d - 1) ∉ D)) = D :=
      hsub.eq_of_length h
    have := List.filter_eq_self.mp heq (a + 1) hcon
    simp only [decide_eq_true_eq] at this
    have ha' : a + 1 - 1 = a := by omega
    rw [ha'] at this
    exact this ha
  · intro h
    have : D.filter (fun d => decide ((d - 1) ∉ D)) = D := by
      rw [List.filter_eq_self]
      intro a ha
      simp only [decide_eq_true_eq]
      intro hcon
      have := h (a - 1) hcon
      have ha' : a - 1 + 1 = a := by omega
      rw [ha'] at this
      exact this ha
    rw [this]

/-- C1: `count_non_adjacent_days` returns 0 on the empty date set; on a
nonempty duplicate-free date set it returns a value in `[1, |D|]` that
equals the number of maximal runs of consecutive days (counted by their
first days, the dates whose previous day is absent), and equals `|D|`
iff no two dates are exactly one day apart. -/
theorem claim_C1 :
    count_non_adjacent_days [] = 0 ∧
    (∀ D : List Int, D ≠ [] →
      1 ≤ count_non_adjacent_days D ∧ count_non_adjacent_days D ≤ D.length) ∧
    (∀ D : List Int, D.Nodup →
      count_non_adjacent_days D =
        (D.filter (fun d => decide ((d - 1) ∉ D))).length) ∧
    (∀ D : List Int, D.Nodup →
      (count_non_adjacent_days D = D.length ↔ ∀ a ∈ D, a + 1 ∉ D)) :=
  ⟨rfl, count_non_adjacent_days_bounds, count_non_adjacent_days_runs,
    count_non_adjacent_days_eq_card_iff⟩

/-- Witness for C1 at the concrete date set `{1, 2, 10}` (two maximal
runs: `{1, 2}` and `{10}`). -/
theorem claim_C1_witness :
    (1 ≤ count_non_adjacent_days [1, 2, 10] ∧
      count_non_adjacent_days [1, 2, 10] ≤ ([1, 2, 10] : List Int).length) ∧
    count_non_adjacent_days [1, 2, 10] =
      (([1, 2, 10] : List Int).filter
        (fun d => decide ((d - 1) ∉ ([1, 2, 10] : List Int)))).length ∧
    (count_non_adjacent_days [1, 2, 10] = ([1, 2, 10] : List Int).length ↔
      ∀ a ∈ ([1, 2, 10] : List Int), a + 1 ∉ ([1, 2, 10] : List Int)) :=
  ⟨claim_C1.2.1 [1, 2, 10] (by decide),
   claim_C1.2.2.1 [1, 2, 10] (by decide),
   claim_C1.2.2.2 [1, 2, 10] (by decide)⟩

/-!
Embedding of the name generator and the oracle-backed validity checks
(lines 27-96 and 109-132).

The Command Existence Oracle (`subprocess.run(['type', name], ...)`) is
an external collaborator and is embedded as a function
`List Char → Option Bool`: `some true` models a completed call with
return code 0 (the token exists), `some false` a completed call with a
nonzero return code, and `none` a raised exception (including a
timeout).
-/

/-- The `reserved_names` set (lines 27-42), transcribed verbatim; the
Python set literal lists `unset` twice, which is identical as a set. -/
def reserved_names : List (List Char) :=
  (["cd", "echo", "pwd", "test", "true", "false", "exit", "return", "break",
    "continue", "if", "then", "else", "elif", "fi", "for", "while", "until",
    "do", "done", "case", "esac", "function", "select", "time", "exec",
    "eval", "source", "alias", "unalias", "export", "unset", "readonly",
    "declare", "local", "let", "shift", "set", "trap", "wait", "jobs", "fg",
    "bg", "disown", "suspend", "kill", "killall",
    "ls", "cp", "mv", "rm", "mkdir", "rmdir", "touch", "cat", "less", "more",
    "head", "tail", "grep", "find", "sort", "cut", "awk", "sed", "tr", "wc",
    "diff", "patch", "tar", "gzip", "zip", "unzip", "curl", "wget", "ssh",
    "scp", "rsync", "git", "vim", "nano", "emacs", "python", "python3",
    "node", "npm", "docker", "make", "gcc", "g++", "java", "javac", "mysql",
    "psql", "sudo", "su", "chmod", "chown", "chgrp", "ps", "top", "htop",
    "df", "du", "free", "mount", "umount", "which", "whereis", "man", "info",
    "help", "history", "clear", "reset", "tput", "stty"] :
    List String).map String.toList

/-- Python `str.lower()` on ASCII text. -/
def pyLower (s : List Char) : List Char := s.map Char.toLower

/-- `is_name_available` (lines 44-63): a name is available unless it is
reserved (after lowercasing) or the oracle reports that `type` succeeds
on it.  A raised subprocess exception is swallowed (`except: pass`), so
the name is then treated as available. -/
def is_name_available (oracle : List Char → Option Bool) (name : List Char) :
    Bool :=
  if pyLower name ∈ reserved_names then false
  else
    match oracle name with
    | some true => false
    | some false => true
    | none => true

/-- `re.sub(r'[^a-zA-Z0-9_-]', '', s)`. -/
def sanitizeName (s : List Char) : List Char :=
  s.filter (fun c => c.isAlpha || c.isDigit || c = '_' || c = '-')

/-- Decimal digits of a natural number (for Python f-string
interpolation of the loop counter). -/
def natDigitsAux : Nat → Nat → List Char
  | 0, _ => []
  | fuel + 1, n =>
    if n < 10 then [Char.ofNat (48 + n)]
    else natDigitsAux fuel (n / 10) ++ [Char.ofNat (48 + n % 10)]

def natDigits (n : Nat) : List Char := natDigitsAux (n + 1) n

/-- `generate_safe_name` (lines 65-96): lowercase and sanitize the
seeded candidate (falling back to `cmd` when empty); accept it if it is
neither already used nor unavailable; otherwise try numeric suffixes
1..99, then the alternate suffixes `x`, `alt`, `new`, `my`; the final
fallback returns `cmd100` (the loop counter is 100 after the loop)
without any availability check. -/
def generate_safe_name (oracle : List Char → Option Bool)
    (base_name : List Char) (used_names : List (List Char))
    (pre suf : List Char) : List Char :=
  let candidate0 := sanitizeName (pyLower (pre ++ base_name ++ suf))
  let candidate := if candidate0.isEmpty then "cmd".toList else candidate0
  if candidate ∉ used_names ∧ is_name_available oracle candidate = true then
    candidate
  else
    match (List.range' 1 99 1).find? (fun k =>
        decide ((candidate ++ natDigits k) ∉ used_names) &&
          is_name_available oracle (candidate ++ natDigits k)) with
    | some k => candidate ++ natDigits k
    | none =>
      match (["x", "alt", "new", "my"].map String.toList).find? (fun sfx =>
          decide ((candidate ++ sfx) ∉ used_names) &&
            is_name_available oracle (candidate ++ sfx)) with
      | some sfx => candidate ++ sfx
      | none => "cmd".toList ++ natDigits 100

/-- The memoization state of `is_valid_command` (the `valid_commands`
and `invalid_commands` sets). -/
structure CmdCache where
  valid : List (List Char)
  invalid : List (List Char)

/-- `is_valid_command` (lines 109-132): consult the caches first; on a
miss ask the oracle, caching the answer; a raised
`subprocess.SubprocessError` marks the token invalid and caches that
(the run continues). -/
def is_valid_command (oracle : List Char → Option Bool) (st : CmdCache)
    (w : List Char) : Bool × CmdCache :=
  if w ∈ st.valid then (true, st)
  else if w ∈ st.invalid then (false, st)
  else
    match oracle w with
    | some true => (true, CmdCache.mk (w :: st.valid) st.invalid)
    | some false => (false, CmdCache.mk st.valid (w :: st.invalid))
    | none => (false, CmdCache.mk st.valid (w :: st.invalid))

/-!
Embedding of the `TemporalAnalyzer` index state and of
`analyze_commands`/`filter_by_temporal_usage` (lines 16-24, 202-275).

`Counter` and `defaultdict` are embedded as association lists in
insertion order with unique keys; `Counter[k] += 1` updates in place or
appends, and reads use a default value.  The `defaultdict(set)` of
dates keeps each per-pattern date list duplicate-free; reading a
missing key yields the empty set (the incidental insertion of an empty
set by `defaultdict.__getitem__` is invisible to every lookup and is
not modelled).
-/

def lookupD (l : List (List Char × List Int)) (k : List Char) : List Int :=
  match l.find? (fun p => decide (p.1 = k)) with
  | some p => p.2
  | none => []

def lookupCount (l : List (List Char × Nat)) (k : List Char) : Nat :=
  match l.find? (fun p => decide (p.1 = k)) with
  | some p => p.2
  | none => 0

def bump : List (List Char × Nat) → List Char → List (List Char × Nat)
  | [], k => [(k, 1)]
  | p :: rest, k =>
      if p.1 = k then (k, p.2 + 1) :: rest else p :: bump rest k

def addDate : List (List Char × List Int) → List Char → Int →
    List (List Char × List Int)
  | [], k, d => [(k, [d])]
  | p :: rest, k, d =>
      if p.1 = k then (k, if d ∈ p.2 then p.2 else p.2 ++ [d]) :: rest
      else p :: addDate rest k d

structure AState where
  commands : List (List Char)
  all_commands : List (List Char × Nat)
  command_dates : List (List Char × List Int)
  skipped_count : Nat
  skip_reasons : List (List Char × Nat)
  cache : CmdCache

def initState : AState := AState.mk [] [] [] 0 [] (CmdCache.mk [] [])

/-- `filter_by_temporal_usage` (lines 258-275): rebuild `all_commands`
keeping exactly the patterns whose non-adjacent-day count reaches the
threshold (with their counts); every other field of the analyzer is
untouched. -/
def filter_by_temporal_usage (st : AState) (min_non_adjacent_days : Nat) :
    AState :=
  AState.mk st.commands
    (st.all_commands.filter (fun p =>
      decide (min_non_adjacent_days ≤
        count_non_adjacent_days (lookupD st.command_dates p.1))))
    st.command_dates st.skipped_count st.skip_reasons st.cache

def shell_constructs : List (List Char) :=
  (["if", "then", "else", "elif", "fi", "for", "while", "do", "done",
    "case", "esac"] : List String).map String.toList

/-- The pattern list tracked for one accepted command (lines 235-241):
the full cleaned line, the first word, and the prefixes of 2..5 words
(duplicates are kept, exactly as the Python list keeps them, so a
single-word command bumps its pattern twice). -/
def patterns_to_track (cleaned : List Char) (parts : List (List Char)) :
    List (List Char) :=
  [cleaned, parts.headD []] ++
    (List.range' 2 4 1).filterMap (fun len =>
      if len ≤ parts.length then some (joinSp (parts.take len)) else none)

/-- One iteration of the `analyze_commands` ingestion loop
(lines 206-250). -/
def analyze_step (oracle : List Char → Option Bool) (st : AState)
    (entry : List Char × Option Int) : AState :=
  match clean_command entry.1 with
  | none => st
  | some cleaned =>
    match words cleaned with
    | [] => st
    | fw :: _ =>
      if fw ∈ shell_constructs then
        AState.mk st.commands st.all_commands st.command_dates
          (st.skipped_count + 1) (bump st.skip_reasons "shell_construct".toList)
          st.cache
      else
        match is_valid_command oracle st.cache fw with
        | (valid, cache') =>
          if valid = false then
            AState.mk st.commands st.all_commands st.command_dates
              (st.skipped_count + 1)
              (bump st.skip_reasons "invalid_command".toList) cache'
          else if 50 < fw.length then
            AState.mk st.commands st.all_commands st.command_dates
              (st.skipped_count + 1)
              (bump st.skip_reasons "too_long".toList) cache'
          else
            let pats := patterns_to_track cleaned (words cleaned)
            AState.mk (st.commands ++ [cleaned])
              (pats.foldl (fun m p => bump m p) st.all_commands)
              (match entry.2 with
               | some d => pats.foldl (fun m p => addDate m p d) st.command_dates
               | none => st.command_dates)
              st.skipped_count st.skip_reasons cache'

/-- `analyze_commands` (lines 202-256): ingest every entry, then apply
the temporal filter. -/
def analyze_commands (oracle : List Char → Option Bool)
    (entries : List (List Char × Option Int)) (min_non_adjacent_days : Nat) :
    AState :=
  filter_by_temporal_usage (entries.foldl (analyze_step oracle) initState)
    min_non_adjacent_days

/-!
Embedding of `parse_timestamp` and `read_history` (lines 98-105 and
134-163).  A parsed timestamp is kept as the natural number matched by
the regex (the epoch value); the conversion to a calendar date is
injective on the values the claims compare and is abstracted away.
-/

/-- Value of `int(...)` on a digit run. -/
def digitsVal (ds : List Char) : Nat :=
  ds.foldl (fun acc c => 10 * acc + (c.toNat - 48)) 0

/-- `parse_timestamp` (lines 98-105): `re.match(r'^#(\d+)', line.strip())`
anchors only at the start, so it succeeds on every stripped line that
begins with `#` followed by at least one digit — whatever follows the
digit run — and captures the maximal leading digit run. -/
def parse_timestamp (line : List Char) : Option Nat :=
  match strip line with
  | '#' :: rest =>
    if (rest.takeWhile Char.isDigit).isEmpty then none
    else some (digitsVal (rest.takeWhile Char.isDigit))
  | _ => none

/-- One iteration of the `read_history` loop (lines 144-157), acting on
the pair (entries so far, current date context). -/
def read_history_step (acc : List (List Char × Option Nat) × Option Nat)
    (line : List Char) : List (List Char × Option Nat) × Option Nat :=
  let l := strip line
  if l.isEmpty then acc
  else
    match parse_timestamp l with
    | some d => (acc.1, some d)
    | none => (acc.1 ++ [(l, acc.2)], acc.2)

/-- `read_history` (lines 134-163) on a given list of raw lines. -/
def read_history (lines : List (List Char)) :
    List (List Char × Option Nat) :=
  (lines.foldl read_history_step ([], none)).1

/-!
Embedding of the alias planner `analyze_root_commands`
(lines 277-337).
-/

/-- First-occurrence deduplication, modelling the key order of a Python
dict or set built by insertion. -/
def dedupFirstAux (seen : List (List Char)) :
    List (List Char) → List (List Char)
  | [] => []
  | x :: rest =>
      if x ∈ seen then dedupFirstAux seen rest
      else x :: dedupFirstAux (x :: seen) rest

def firstToken (cmd : List Char) : List Char := (words cmd).headD []

/-- `savings_potential` of one pattern (line 288): assume a 2-char
alias. -/
def savings_potential (cmd : List Char) (count : Nat) : Int :=
  ((cmd.length : Int) - 2) * count

/-- The members of one root group (lines 282-289), in `all_commands`
iteration order. -/
def rootGroup (all : List (List Char × Nat)) (r : List Char) :
    List (List Char × Nat) :=
  all.filter (fun p => decide (' ' ∈ p.1) && decide (firstToken p.1 = r))

/-- The root keys in first-insertion order (the `root_groups` dict). -/
def rootKeys (all : List (List Char × Nat)) : List (List Char) :=
  dedupFirstAux []
    ((all.filter (fun p => decide (' ' ∈ p.1))).map (fun p => firstToken p.1))

def group_total (all : List (List Char × Nat)) (r : List Char) : Nat :=
  ((rootGroup all r).map (fun p => p.2)).sum

def group_root_usage (all : List (List Char × Nat)) (r : List Char) : Nat :=
  lookupCount all r

/-- `root_alias_savings` (lines 304-307). -/
def group_rs (all : List (List Char × Nat)) (r : List Char) : Int :=
  if 0 < group_root_usage all r then
    ((r.length : Int) - 1) * (group_root_usage all r + group_total all r)
  else 0

/-- `pattern_alias_savings` (line 310). -/
def group_ps (all : List (List Char × Nat)) (r : List Char) : Int :=
  ((rootGroup all r).map (fun p => savings_potential p.1 p.2)).sum

inductive AliasKind where
  | root : AliasKind
  | pattern : AliasKind
deriving DecidableEq

structure AliasRec where
  kind : AliasKind
  original : List Char
  alias_name : List Char
  count : Nat
  savings : Int
  patterns : List (List Char)
deriving DecidableEq

/-- The recommendations contributed by one root group (lines 294-335).
The float literal `1.2` of line 313 is embedded exactly as the rational
6/5, so the test `root_alias_savings > pattern_alias_savings * 1.2` is
written `5 * rs > 6 * ps` over the integers (both savings are integers,
so the comparison agrees with the Python float comparison on all values
whose product by 1.2 is far from the float rounding error, in
particular on every input discussed here). -/
def groupRecs (all : List (List Char × Nat)) (r : List Char) :
    List AliasRec :=
  let commands := rootGroup all r
  if commands.isEmpty then []
  else
    if 5 * group_rs all r > 6 * group_ps all r then
      if 5 ≤ group_root_usage all r + group_total all r then
        [AliasRec.mk AliasKind.root r (r.take 1)
          (group_root_usage all r + group_total all r) (group_rs all r)
          (commands.map (fun p => p.1))]
      else []
    else
      commands.filterMap (fun p =>
        if 3 ≤ p.2 then
          some (AliasRec.mk AliasKind.pattern p.1 "placeholder".toList p.2
            (savings_potential p.1 p.2) [p.1])
        else none)

/-- `analyze_root_commands` (lines 277-337). -/
def analyze_root_commands (all : List (List Char × Nat)) : List AliasRec :=
  (rootKeys all).flatMap (groupRecs all)

/-!
Embedding of `analyze_bash_functions` (lines 339-406) and
`generate_function_name` (lines 408-448).
-/

structure PMember where
  command : List Char
  count : Nat
  remaining : List Char
deriving DecidableEq

/-- The members of one prefix group (lines 344-356), in `all_commands`
iteration order. -/
def prefixMembers (all : List (List Char × Nat)) (p : List Char) :
    List PMember :=
  all.filterMap (fun q =>
    if decide (' ' ∈ q.1) ∧ 3 ≤ (words q.1).length ∧
        (words p).length ≤ (words q.1).length ∧
        joinSp ((words q.1).take (words p).length) = p then
      some (PMember.mk q.1 q.2 (joinSp ((words q.1).drop (words p).length)))
    else none)

/-- The prefix keys in first-insertion order (the `prefix_groups`
dict): for each multi-word pattern of at least 3 tokens, its 3-, 4- and
5-token prefixes where they exist. -/
def funcPrefixes (all : List (List Char × Nat)) : List (List Char) :=
  dedupFirstAux []
    (all.flatMap (fun q =>
      if decide (' ' ∈ q.1) && decide (3 ≤ (words q.1).length) then
        [3, 4, 5].filterMap (fun k =>
          if k ≤ (words q.1).length then some (joinSp ((words q.1).take k))
          else none)
      else []))

def funcTotal (all : List (List Char × Nat)) (p : List Char) : Nat :=
  ((prefixMembers all p).map (fun m => m.count)).sum

/-- `unique_suffixes` (line 367): the number of distinct non-empty
remainders (`if cmd['remaining']` drops the empty string). -/
def funcUniq (all : List (List Char × Nat)) (p : List Char) : Nat :=
  (dedupFirstAux []
    ((prefixMembers all p).filterMap (fun m =>
      if m.remaining.isEmpty then none else some m.remaining))).length

def dedupInt (acc : List Int) (l : List Int) : List Int :=
  l.foldl (fun a d => if d ∈ a then a else a ++ [d]) acc

/-- `all_dates` for a prefix group (lines 383-385), as a duplicate-free
list. -/
def unionDates (dates : List (List Char × List Int)) (cmds : List (List Char)) :
    List Int :=
  cmds.foldl (fun acc c => dedupInt acc (lookupD dates c)) []

def listMax (l : List Int) : Int := l.foldl max (l.headD 0)

def listMin (l : List Int) : Int := l.foldl min (l.headD 0)

def dateSpan (l : List Int) : Int :=
  if l.isEmpty then 0 else listMax l - listMin l

structure FuncRec where
  pfx : List Char
  func_name : List Char
  total_usage : Nat
  variations : Nat
  unique_suffixes : Nat
  examples : List (List Char)
  chars_per_use : Int
  total_chars_saved : Int
  non_adjacent_days : Nat
  date_span : Int
deriving DecidableEq

/-- The candidate produced by one prefix group, if any (lines 361-401).
`func_call_len` is `len("placeholder ") = 12`, because line 376
measures the literal placeholder, not the generated name. -/
def prefixRec (all : List (List Char × Nat))
    (dates : List (List Char × List Int)) (p : List Char) : Option FuncRec :=
  let commands := prefixMembers all p
  if commands.length < 2 then none
  else if 10 ≤ funcTotal all p ∧ 2 ≤ funcUniq all p then
    if 0 < (p.length : Int) - 12 then
      some (FuncRec.mk p "placeholder".toList (funcTotal all p)
        commands.length (funcUniq all p)
        ((commands.map (fun m => m.command)).take 3)
        ((p.length : Int) - 12)
        (((p.length : Int) - 12) * funcTotal all p)
        (count_non_adjacent_days
          (unionDates dates (commands.map (fun m => m.command))))
        (dateSpan (unionDates dates (commands.map (fun m => m.command)))))
    else none
  else none

/-- `analyze_bash_functions` (lines 339-406): evaluate every prefix
group and sort by `total_chars_saved` descending (`list.sort` is
stable; `insertionSort` with the reflexive descending relation is the
same stable sort). -/
def analyze_bash_functions (all : List (List Char × Nat))
    (dates : List (List Char × List Int)) : List FuncRec :=
  ((funcPrefixes all).filterMap (prefixRec all dates)).insertionSort
    (fun a b => b.total_chars_saved ≤ a.total_chars_saved)

/-- `generate_function_name` (lines 408-448).  Line 414 replaces runs
of `[&|;><]+` by one space; the embedding replaces each such character
by a space, which yields the same `split()` result. -/
def generate_function_name (oracle : List Char → Option Bool)
    (pfx : List Char) (used : List (List Char)) : List Char :=
  let clean_prefix := pfx.map (fun c =>
    if c = '&' || c = '|' || c = ';' || c = '>' || c = '<' then ' ' else c)
  let meaningful := (words clean_prefix).filterMap (fun part =>
    let cp := part.filter (fun c => c.isAlpha || c.isDigit)
    if cp.isEmpty then none else some cp)
  if meaningful.isEmpty then
    generate_safe_name oracle "func".toList used [] []
  else
    let base :=
      if 3 ≤ meaningful.length then
        if meaningful.headD [] = ['g'] then
          meaningful.headD [] ++
            (((meaningful.drop 1).take 2).map (fun p => p.take 1)).flatten
        else ((meaningful.take 3).map (fun p => p.take 1)).flatten
      else if meaningful.length = 2 then
        (meaningful.headD []).take 1 ++ (meaningful.getD 1 []).take 1
      else (meaningful.headD []).take 3
    let base2 := sanitizeName base
    generate_safe_name oracle (if base2.isEmpty then "func".toList else base2)
      used [] []

/-!
Embedding of the division sites named by the safety claim:
`calculate_temporal_savings` (lines 870-873),
`show_top_recurring_commands` (lines 1074-1093) and
`generate_executive_summary` (lines 1095-1110).  Python division is
embedded as `pyDiv`, with `none` for the `ZeroDivisionError` raised on
a zero denominator; each model returns `none` exactly when the printing
code would raise. -/

def pyDiv (a b : Rat) : Option Rat := if b = 0 then none else some (a / b)

/-- The guarded summary block of `calculate_temporal_savings`
(lines 870-873): inside `if total_commands_affected > 0` it prints the
average savings per usage and the estimated minutes. -/
def calculate_temporal_savings_prints (saved : Int)
    (affected : Nat) : Option (List Rat) :=
  if 0 < affected then
    match pyDiv (saved : Rat) (affected : Rat) with
    | none => none
    | some avg =>
      match pyDiv (saved : Rat) 200 with
      | none => none
      | some t => some [avg, t]
  else some []

/-- Sequencing of fallible steps: `none` as soon as one step raises. -/
def mapOpt {α β : Type} (f : α → Option β) : List α → Option (List β)
  | [] => some []
  | a :: l =>
    match f a, mapOpt f l with
    | some b, some bs => some (b :: bs)
    | _, _ => none

/-- The per-row percentages of `show_top_recurring_commands`
(lines 1082-1092): the 15 most common single-word patterns each divide
by `len(self.commands)`. -/
def show_top_recurring_commands (st : AState) : Option (List Rat) :=
  mapOpt
    (fun p =>
      match pyDiv (p.2 : Rat) (st.commands.length : Rat) with
      | none => none
      | some x => some (x * 100))
    (((st.all_commands.filter (fun p => decide (' ' ∉ p.1))).insertionSort
      (fun a b => b.2 ≤ a.2)).take 15)

/-- The two percentages of `generate_executive_summary`
(lines 1097-1109): the repetition rate divides by `len(self.commands)`
and the filter effectiveness by `total_commands + skipped_count`, both
without a zero guard. -/
def generate_executive_summary (st : AState) : Option (Rat × Rat) :=
  let total_commands : Nat := st.commands.length
  let unique_commands : Nat := (dedupFirstAux [] st.commands).length
  match pyDiv ((total_commands : Rat) - (unique_commands : Rat))
      (total_commands : Rat) with
  | none => none
  | some rep =>
    match pyDiv ((st.skipped_count : Rat))
        ((total_commands + st.skipped_count : Nat) : Rat) with
    | none => none
    | some eff => some (rep * 100, eff * 100)

/-!
Claims C2 and C10: the temporal filter.
-/

/-- C2: for every analyzer state, threshold and pattern entry, the
temporal filter retains the entry iff the non-adjacent-day count of the
pattern's recorded date set reaches the threshold; consequently the
surviving set at threshold N+1 is contained in the surviving set at
threshold N. -/
theorem claim_C2 :
    (∀ (st : AState) (n : Nat) (cmd : List Char) (cnt : Nat),
        (cmd, cnt) ∈ (filter_by_temporal_usage st n).all_commands ↔
          (cmd, cnt) ∈ st.all_commands ∧
            n ≤ count_non_adjacent_days (lookupD st.command_dates cmd)) ∧
    (∀ (st : AState) (n : Nat) (cmd : List Char) (cnt : Nat),
        (cmd, cnt) ∈ (filter_by_temporal_usage st (n + 1)).all_commands →
          (cmd, cnt) ∈ (filter_by_temporal_usage st n).all_commands) := by
  have hmem : ∀ (st : AState) (n : Nat) (cmd : List Char) (cnt : Nat),
      (cmd, cnt) ∈ (filter_by_temporal_usage st n).all_commands ↔
        (cmd, cnt) ∈ st.all_commands ∧
          n ≤ count_non_adjacent_days (lookupD st.command_dates cmd) := by
    intro st n cmd cnt
    simp [filter_by_temporal_usage, List.mem_filter]
  refine ⟨hmem, ?_⟩
  intro st n cmd cnt h
  have h1 := (hmem st (n + 1) cmd cnt).mp h
  exact (hmem st n cmd cnt).mpr ⟨h1.1, by omega⟩

def exC2 : AState :=
  AState.mk [] [("a".toList, 2)] [("a".toList, [0, 5])] 0 []
    (CmdCache.mk [] [])

/-- Witness for C2: a pattern used on the two non-adjacent days 0 and 5
survives threshold 2, hence threshold 1. -/
theorem claim_C2_witness :
    ("a".toList, 2) ∈ (filter_by_temporal_usage exC2 1).all_commands :=
  claim_C2.2 exC2 1 "a".toList 2 (by decide)

/-- C10: the temporal filter rewrites only `all_commands`; the
command-to-dates map, the accepted-command list and the skip counters
are untouched, so the dates of filtered-out patterns keep answering
lookups, and the function planner applied after filtering reads the
same date map as before filtering. -/
theorem claim_C10 :
    ∀ (st : AState) (n : Nat),
      (filter_by_temporal_usage st n).command_dates = st.command_dates ∧
      (filter_by_temporal_usage st n).commands = st.commands ∧
      (filter_by_temporal_usage st n).skipped_count = st.skipped_count ∧
      (filter_by_temporal_usage st n).skip_reasons = st.skip_reasons ∧
      (∀ p : List Char,
        lookupD (filter_by_temporal_usage st n).command_dates p =
          lookupD st.command_dates p) ∧
      analyze_bash_functions (filter_by_temporal_usage st n).all_commands
          (filter_by_temporal_usage st n).command_dates =
        analyze_bash_functions (filter_by_temporal_usage st n).all_commands
          st.command_dates :=
  fun _ _ => ⟨rfl, rfl, rfl, rfl, fun _ => rfl, rfl⟩

/-!
Claims C4 and C5: the name generator and the oracle failure modes.
-/

theorem is_name_available_true (o : List Char → Option Bool)
    (t : List Char) (h : is_name_available o t = true) :
    pyLower t ∉ reserved_names ∧ o t ≠ some true := by
  unfold is_name_available at h
  by_cases hm : pyLower t ∈ reserved_names
  · rw [if_pos hm] at h; cases h
  · refine ⟨hm, fun ho => ?_⟩
    rw [if_neg hm, ho] at h
    cases h

/-- C4 corrected: on every path that returns an accepted candidate the
result is unused, unreserved and not reported existing by the oracle;
but the final fallback returns the fixed name `cmd100` WITHOUT any
availability or membership check, so the disjunction below is the
strongest guarantee `generate_safe_name` gives
(`claim_C4_counterexample` exhibits the unchecked fallback). -/
theorem claim_C4 :
    ∀ (oracle : List Char → Option Bool) (base_name : List Char)
      (used_names : List (List Char)) (pre suf : List Char),
      (generate_safe_name oracle base_name used_names pre suf ∉ used_names ∧
        pyLower (generate_safe_name oracle base_name used_names pre suf) ∉
          reserved_names ∧
        oracle (generate_safe_name oracle base_name used_names pre suf) ≠
          some true) ∨
      generate_safe_name oracle base_name used_names pre suf =
        "cmd100".toList := by
  intro o base used pre suf
  simp only [generate_safe_name]
  split
  all_goals
    split
    · rename_i h
      exact Or.inl ⟨h.1, is_name_available_true o _ h.2⟩
    · split
      · rename_i k hk
        have h1 := List.find?_some hk
        rw [Bool.and_eq_true, decide_eq_true_eq] at h1
        exact Or.inl ⟨h1.1, is_name_available_true o _ h1.2⟩
      · split
        · rename_i sfx hsfx
          have h1 := List.find?_some hsfx
          rw [Bool.and_eq_true, decide_eq_true_eq] at h1
          exact Or.inl ⟨h1.1, is_name_available_true o _ h1.2⟩
        · exact Or.inr rfl

/-- Counterexample for C4's universal guarantee: against an oracle that
reports every name as an existing command, the exhausted generator
returns `cmd100`, a name the oracle reports as existing. -/
theorem claim_C4_counterexample :
    generate_safe_name (fun _ => some true) "x".toList [] [] [] =
      "cmd100".toList ∧
    (fun _ : List Char => (some true : Option Bool)) "cmd100".toList =
      some true :=
  ⟨by decide, rfl⟩

/-- C5 corrected: in `is_valid_command` an oracle exception is indeed
failed closed — the token is reported invalid, the negative answer is
cached, and every later query answers from the cache — but in
`is_name_available` an oracle exception fails OPEN: the reserved-name
check aside, the candidate is reported AVAILABLE and nothing is cached
(`claim_C5_counterexample`). -/
theorem claim_C5 :
    (∀ (o : List Char → Option Bool) (st : CmdCache) (w : List Char),
        o w = none → w ∉ st.valid → w ∉ st.invalid →
        is_valid_command o st w =
          (false, CmdCache.mk st.valid (w :: st.invalid)) ∧
        (∀ o2 : List Char → Option Bool,
          is_valid_command o2 (CmdCache.mk st.valid (w :: st.invalid)) w =
            (false, CmdCache.mk st.valid (w :: st.invalid)))) ∧
    (∀ (o : List Char → Option Bool) (n : List Char),
        o n = none → pyLower n ∉ reserved_names →
        is_name_available o n = true) := by
  constructor
  · intro o st w ho h1 h2
    constructor
    · unfold is_valid_command
      rw [if_neg h1, if_neg h2, ho]
    · intro o2
      unfold is_valid_command
      rw [if_neg h1, if_pos (List.mem_cons_self w st.invalid)]
  · intro o n ho hm
    unfold is_name_available
    rw [if_neg hm, ho]

/-- Witness for C5 at a concrete failing oracle: the token `qqq` is
reported invalid and cached as such, and the candidate name `qqq` is
reported available. -/
theorem claim_C5_witness :
    is_valid_command (fun _ => none) (CmdCache.mk [] []) "qqq".toList =
      (false, CmdCache.mk [] ["qqq".toList]) ∧
    is_name_available (fun _ => none) "qqq".toList = true :=
  ⟨(claim_C5.1 (fun _ => none) (CmdCache.mk [] []) "qqq".toList rfl
      (by decide) (by decide)).1,
   claim_C5.2 (fun _ => none) "qqq".toList rfl (by decide)⟩

/-- Counterexample for C5's claim that an oracle exception marks a
CANDIDATE NAME unavailable: with an always-raising oracle the
unreserved name `zzz9` is reported available. -/
theorem claim_C5_counterexample :
    is_name_available (fun _ => none) "zzz9".toList = true := by decide

/-!
Claim C8: timestamp parsing while reading the history.
-/

theorem strip_idem (s : List Char) : strip (strip s) = strip s :=
  strip_eq_self strip_head_nsp strip_revhead_nsp

theorem parse_strip (s : List Char) :
    parse_timestamp (strip s) = parse_timestamp s := by
  unfold parse_timestamp
  rw [strip_idem]

theorem parse_timestamp_hash {line rest : List Char}
    (h : strip line = '#' :: rest) :
    parse_timestamp line =
      (if (rest.takeWhile Char.isDigit).isEmpty then none
       else some (digitsVal (rest.takeWhile Char.isDigit))) := by
  unfold parse_timestamp
  rw [h]
  rfl

theorem parse_some_nonempty {line : List Char} {n : Nat}
    (h : parse_timestamp line = some n) : (strip line).isEmpty = false := by
  cases hs : strip line with
  | nil =>
    unfold parse_timestamp at h
    rw [hs] at h
    cases h
  | cons c cs => rfl

/-- C8 corrected: a leading `#` followed by at least one digit sets the
date context to the value of the maximal leading digit run — the regex
`^#(\d+)` is an unanchored-at-the-end prefix match, so trailing
non-digit text (as in `#123abc`) does NOT demote the line to a plain
command; only a `#` line with no digit directly after the `#` is
treated as a command line with the context unchanged. -/
theorem claim_C8 :
    (∀ (acc : List (List Char × Option Nat) × Option Nat)
        (line : List Char) (n : Nat), parse_timestamp line = some n →
        read_history_step acc line = (acc.1, some n)) ∧
    (∀ (acc : List (List Char × Option Nat) × Option Nat)
        (line : List Char), (strip line).isEmpty = false →
        parse_timestamp line = none →
        read_history_step acc line = (acc.1 ++ [(strip line, acc.2)], acc.2)) ∧
    (∀ line rest : List Char, strip line = '#' :: rest →
        (rest.takeWhile Char.isDigit).isEmpty = true →
        parse_timestamp line = none) ∧
    (∀ line rest : List Char, strip line = '#' :: rest →
        (rest.takeWhile Char.isDigit).isEmpty = false →
        parse_timestamp line =
          some (digitsVal (rest.takeWhile Char.isDigit))) := by
  refine ⟨?_, ?_, ?_, ?_⟩
  · intro acc line n h
    have hne := parse_some_nonempty h
    simp only [read_history_step]
    rw [parse_strip, h, hne]
    simp
  · intro acc line hne h
    simp only [read_history_step]
    rw [parse_strip, h, hne]
    simp
  · intro line rest h hd
    rw [parse_timestamp_hash h, hd]
    simp
  · intro line rest h hd
    rw [parse_timestamp_hash h, hd]
    simp

/-- Witness for C8 on concrete history lines: `#99` sets the context,
`ls` is recorded under the current context, `#abc` is a plain command
line, and `#123abc` sets the context to 123. -/
theorem claim_C8_witness :
    read_history_step (([], none) :
        List (List Char × Option Nat) × Option Nat) "#99".toList =
      ([], some 99) ∧
    read_history_step (([], some 5) :
        List (List Char × Option Nat) × Option Nat) "ls".toList =
      ([("ls".toList, some 5)], some 5) ∧
    parse_timestamp "#abc".toList = none ∧
    parse_timestamp "#123abc".toList =
      some (digitsVal ("123abc".toList.takeWhile Char.isDigit)) :=
  ⟨claim_C8.1 ([], none) "#99".toList 99 (by decide),
   claim_C8.2.1 ([], some 5) "ls".toList (by decide) (by decide),
   claim_C8.2.2.1 "#abc".toList "abc".toList (by decide) (by decide),
   claim_C8.2.2.2 "#123abc".toList "123abc".toList (by decide) (by decide)⟩

/-- Counterexample for C8 as stated: `#123abc` is `#` followed by
non-numeric text, yet it is consumed as a timestamp line — it changes
the date context to 123 and is not recorded as a command. -/
theorem claim_C8_counterexample :
    parse_timestamp "#123abc".toList = some 123 ∧
    read_history ["#123abc".toList, "ls".toList] =
      [("ls".toList, some 123)] := by decide

/-!
Claim C9: the division sites of the reports.
-/

theorem mapOpt_isSome {α β : Type} (f : α → Option β) (l : List α)
    (h : ∀ a ∈ l, (f a).isSome = true) : (mapOpt f l).isSome = true := by
  induction l with
  | nil => rfl
  | cons a l ih =>
    obtain ⟨b, hb⟩ := Option.isSome_iff_exists.mp (h a (List.mem_cons_self a l))
    obtain ⟨bs, hbs⟩ :=
      Option.isSome_iff_exists.mp (ih fun x hx => h x (List.mem_cons_of_mem a hx))
    simp [mapOpt, hb, hbs]

/-- C9 is a code bug: the summary block of `calculate_temporal_savings`
is guarded (`if total_commands_affected > 0`) and never faults, and the
executive summary and the top-commands table never fault as long as at
least one command survived ingestion — but `generate_executive_summary`
divides by `len(self.commands)` with no guard, so on any history whose
every entry is skipped (`claim_C9_counterexample` feeds the single
well-formed line `if`) it raises `ZeroDivisionError` instead of
reporting zero. -/
theorem claim_C9 :
    (∀ (saved : Int) (affected : Nat),
        (calculate_temporal_savings_prints saved affected).isSome = true) ∧
    (∀ st : AState, st.commands ≠ [] →
        (generate_executive_summary st).isSome = true ∧
        (show_top_recurring_commands st).isSome = true) := by
  constructor
  · intro saved affected
    unfold calculate_temporal_savings_prints
    by_cases h : 0 < affected
    · have h2 : ((affected : Rat)) ≠ 0 := by
        exact_mod_cast Nat.pos_iff_ne_zero.mp h
      rw [if_pos h]
      unfold pyDiv
      rw [if_neg h2, if_neg (by norm_num : (200 : Rat) ≠ 0)]
      rfl
    · rw [if_neg h]
      rfl
  · intro st hst
    have hpos : st.commands.length ≠ 0 :=
      Nat.pos_iff_ne_zero.mp (List.length_pos.mpr hst)
    have hlen : ((st.commands.length : Nat) : Rat) ≠ 0 :=
      Nat.cast_ne_zero.mpr hpos
    constructor
    · simp only [generate_executive_summary, pyDiv]
      have h2 : ((st.commands.length + st.skipped_count : Nat) : Rat) ≠ 0 :=
        Nat.cast_ne_zero.mpr (by omega)
      rw [if_neg hlen, if_neg h2]
      rfl
    · unfold show_top_recurring_commands
      apply mapOpt_isSome
      intro p hp
      simp [pyDiv, hlen]

def exC9 : AState :=
  AState.mk ["ls".toList] [("ls".toList, 3)] [] 2 [] (CmdCache.mk [] [])

/-- Witness for C9's non-faulting condition at a state with one
surviving command and two skipped entries. -/
theorem claim_C9_witness :
    (generate_executive_summary exC9).isSome = true ∧
    (show_top_recurring_commands exC9).isSome = true :=
  claim_C9.2 exC9 (by decide)

/-- Failing input for C9: the one-line history `if` (no timestamp) is
ingested without error, every entry is skipped as a shell construct, no
command survives, and the executive summary's repetition-rate division
then has a zero denominator — the model returns `none`, the Python
code raises `ZeroDivisionError`. -/
theorem claim_C9_counterexample :
    (analyze_commands (fun _ => none) [("if".toList, none)] 5).commands =
      [] ∧
    (analyze_commands (fun _ => none)
        [("if".toList, none)] 5).skipped_count = 1 ∧
    generate_executive_summary
      (analyze_commands (fun _ => none) [("if".toList, none)] 5) =
        none := by decide

/-!
Claim C6: the alias planner's decision rule.
-/

/-- C6 corrected: when `root_savings > 1.2 × pattern_savings` the
planner proposes the single root alias only if combined usage reaches
5 — below that it proposes NOTHING for the group, not the per-pattern
aliases the claim's "in every other case" promises; the per-pattern
branch runs only when the savings test itself fails.  The never-parts
of the claim hold.  (The float `1.2` is embedded as the rational 6/5,
see `groupRecs`.) -/
theorem claim_C6 :
    (∀ (all : List (List Char × Nat)) (r : List Char),
        rootGroup all r ≠ [] →
        5 * group_rs all r > 6 * group_ps all r →
        5 ≤ group_root_usage all r + group_total all r →
        groupRecs all r =
          [AliasRec.mk AliasKind.root r (r.take 1)
            (group_root_usage all r + group_total all r) (group_rs all r)
            ((rootGroup all r).map (fun p => p.1))]) ∧
    (∀ (all : List (List Char × Nat)) (r : List Char),
        5 * group_rs all r > 6 * group_ps all r →
        group_root_usage all r + group_total all r < 5 →
        groupRecs all r = []) ∧
    (∀ (all : List (List Char × Nat)) (r : List Char),
        ¬ 5 * group_rs all r > 6 * group_ps all r →
        groupRecs all r = (rootGroup all r).filterMap (fun p =>
          if 3 ≤ p.2 then
            some (AliasRec.mk AliasKind.pattern p.1 "placeholder".toList p.2
              (savings_potential p.1 p.2) [p.1])
          else none)) ∧
    (∀ (all : List (List Char × Nat)) (rec : AliasRec),
        rec ∈ analyze_root_commands all →
        (rec.kind = AliasKind.root →
          5 * group_rs all rec.original > 6 * group_ps all rec.original ∧
          5 ≤ group_root_usage all rec.original +
            group_total all rec.original ∧
          rec.alias_name = rec.original.take 1) ∧
        (rec.kind = AliasKind.pattern → 3 ≤ rec.count)) := by
  have hne : ∀ (all : List (List Char × Nat)) (r : List Char),
      rootGroup all r ≠ [] → ¬ (rootGroup all r).isEmpty = true := by
    intro all r h hc
    exact h (List.isEmpty_iff.mp hc)
  refine ⟨?_, ?_, ?_, ?_⟩
  · intro all r h0 hgt hge
    simp only [groupRecs]
    rw [if_neg (hne all r h0), if_pos hgt, if_pos hge]
  · intro all r hgt hlt
    by_cases h0 : (rootGroup all r).isEmpty = true
    · simp only [groupRecs]
      rw [if_pos h0]
    · simp only [groupRecs]
      rw [if_neg h0, if_pos hgt, if_neg (by omega)]
  · intro all r hgt
    by_cases h0 : (rootGroup all r).isEmpty = true
    · simp only [groupRecs]
      rw [if_pos h0, List.isEmpty_iff.mp h0]
      rfl
    · simp only [groupRecs]
      rw [if_neg h0, if_neg hgt]
  · intro all rec hmem
    rw [analyze_root_commands, List.mem_flatMap] at hmem
    obtain ⟨r, hr, hrec⟩ := hmem
    simp only [groupRecs] at hrec
    split at hrec
    · cases hrec
    · split at hrec
      · split at hrec
        · rename_i hgt hge
          rw [List.mem_singleton] at hrec
          subst hrec
          exact ⟨fun _ => ⟨hgt, hge, rfl⟩, fun hk => AliasKind.noConfusion hk⟩
        · cases hrec
      · rw [List.mem_filterMap] at hrec
        obtain ⟨p, hp, heq⟩ := hrec
        split at heq
        · rename_i hcnt
          cases heq
          exact ⟨fun hk => AliasKind.noConfusion hk, fun _ => hcnt⟩
        · cases heq

def exC6 : List (List Char × Nat) :=
  [("12345678901234567890 x".toList, 3), ("12345678901234567890".toList, 1)]

/-- Witness for C6 at a concrete index: the 20-char root wins the
savings comparison (5·76 > 6·60) but combined usage is 4, so its group
contributes no recommendation at all. -/
theorem claim_C6_witness :
    groupRecs exC6 "12345678901234567890".toList = [] :=
  claim_C6.2.1 exC6 "12345678901234567890".toList (by decide) (by decide)

/-- Counterexample for C6 as stated: on this index the root-alias
condition of the claim fails (combined usage 4 < 5), the group has a
multi-word pattern with count 3, yet the planner proposes nothing —
not the promised per-pattern alias. -/
theorem claim_C6_counterexample :
    analyze_root_commands exC6 = [] ∧
    ¬ (5 * group_rs exC6 "12345678901234567890".toList >
          6 * group_ps exC6 "12345678901234567890".toList ∧
        5 ≤ group_root_usage exC6 "12345678901234567890".toList +
          group_total exC6 "12345678901234567890".toList) ∧
    (∃ p ∈ rootGroup exC6 "12345678901234567890".toList, 3 ≤ p.2) := by
  decide

/-!
Claim C7: the function planner's candidate rule and savings formula.
-/

/-- C7 corrected: the candidate conditions hold as claimed except that
only NON-EMPTY remaining suffixes count toward the two distinct
suffixes, and the savings formula uses the literal string
`placeholder` (length 11, call length 12), NOT the generated function
name: every emitted candidate satisfies
`total_chars_saved = (len(prefix) - 12) * total_usage`
(`claim_C7_counterexample` shows the claimed formula giving a
different number). -/
theorem claim_C7 :
    (∀ (all : List (List Char × Nat)) (dates : List (List Char × List Int))
        (rec : FuncRec), rec ∈ analyze_bash_functions all dates →
        2 ≤ rec.variations ∧ 10 ≤ rec.total_usage ∧
        2 ≤ rec.unique_suffixes ∧
        rec.func_name = "placeholder".toList ∧
        rec.chars_per_use = (rec.pfx.length : Int) - 12 ∧
        0 < rec.chars_per_use ∧
        rec.total_chars_saved = rec.chars_per_use * rec.total_usage ∧
        rec.variations = (prefixMembers all rec.pfx).length ∧
        rec.total_usage = funcTotal all rec.pfx ∧
        rec.unique_suffixes = funcUniq all rec.pfx) ∧
    (∀ (all : List (List Char × Nat)) (dates : List (List Char × List Int))
        (p : List Char), p ∈ funcPrefixes all →
        2 ≤ (prefixMembers all p).length →
        10 ≤ funcTotal all p → 2 ≤ funcUniq all p →
        0 < (p.length : Int) - 12 →
        ∃ rec ∈ analyze_bash_functions all dates, rec.pfx = p) := by
  constructor
  · intro all dates rec hmem
    rw [analyze_bash_functions] at hmem
    have hmem2 : rec ∈ (funcPrefixes all).filterMap (prefixRec all dates) :=
      (List.perm_insertionSort _ _).mem_iff.mp hmem
    rw [List.mem_filterMap] at hmem2
    obtain ⟨p, hp, heq⟩ := hmem2
    simp only [prefixRec] at heq
    split at heq
    · cases heq
    · split at heq
      · split at heq
        · rename_i hlen hcond hpos
          cases heq
          exact ⟨(by omega : 2 ≤ (prefixMembers all p).length), hcond.1,
            hcond.2, rfl, rfl, hpos, rfl, rfl, rfl, rfl⟩
        · cases heq
      · cases heq
  · intro all dates p hp h2 h10 huniq hpos
    have hsome : (prefixRec all dates p).isSome = true := by
      simp only [prefixRec]
      rw [if_neg (by omega), if_pos ⟨h10, huniq⟩, if_pos hpos]
      rfl
    obtain ⟨rec, hrec⟩ := Option.isSome_iff_exists.mp hsome
    have hpfx : rec.pfx = p := by
      revert hrec
      simp only [prefixRec]
      rw [if_neg (by omega), if_pos ⟨h10, huniq⟩, if_pos hpos]
      intro hrec
      cases hrec
      rfl
    refine ⟨rec, ?_, hpfx⟩
    rw [analyze_bash_functions]
    exact (List.perm_insertionSort _ _).mem_iff.mpr
      (List.mem_filterMap.mpr ⟨p, hp, hrec⟩)

def exC7 : List (List Char × Nat) :=
  [("git status --short x1".toList, 7), ("git status --short x2".toList, 8)]

/-- Witness for C7: the prefix `git status --short` has two members
with distinct non-empty suffixes and total usage 15, so a candidate
with that prefix is emitted. -/
theorem claim_C7_witness :
    ∃ rec ∈ analyze_bash_functions exC7 [],
      rec.pfx = "git status --short".toList :=
  claim_C7.2 exC7 [] "git status --short".toList (by decide) (by decide)
    (by decide) (by decide) (by decide)

/-- Counterexample for C7's savings formula: the emitted candidate for
the 18-char prefix `git status --short` carries savings
(18 − 12) × 15 = 90, while the claimed formula with the generated name
`gss` gives (18 − 3 − 1) × 15 = 210. -/
theorem claim_C7_counterexample :
    (analyze_bash_functions exC7 []).map
      (fun rec => rec.total_chars_saved) = [90] ∧
    generate_function_name (fun _ => some false)
      "git status --short".toList [] = "gss".toList ∧
    (("git status --short".toList.length : Int) -
      ("gss".toList.length : Int) - 1) * 15 = 210 ∧
    (90 : Int) ≠ 210 := by decide

end TA
